import Mathlib

/-!
Verification development for the `simple-file-server` repository.

The file shallowly embeds the parts of the source the specification talks
about:

* a model of Rust `std::path` component semantics (`join`, `starts_with`,
  `file_name`) together with the `path_clean` crate's `clean` function,
  used by `FsFileStore::full_path` (src/file_store.rs) and
  `secure_virtual_path` (src/routes/serve_files.rs);
* the `CacheMap` LRU/TTL cache (src/cache_map.rs), with `Instant`
  rendered as a natural-number timestamp and the backing `HashMap`
  rendered as an association list (the list order plays the role of the
  hash map's iteration order, which Rust leaves unspecified but which is
  deterministic within a run);
* the filesystem store `FsFileStore` (src/file_store.rs): `exists`,
  `upload`, `remove`, sidecar metadata, and `FsFile::bytes_iter`, over an
  explicit filesystem state; SHA-256 is implemented concretely;
* the conditional-GET response construction `response_from_file`
  (src/routes/serve_files.rs).
-/

namespace SFS

/-! ## Rust path model

A Rust `Path` is modelled as an absoluteness flag plus a list of
components.  `Comp.rootDir` never occurs inside `RPath.comps`; it is only
used by `rootedComps` to mirror Rust's component iterator, which yields a
`RootDir` component for absolute paths (this is what `Path::starts_with`
compares). -/

inductive Comp where
  | rootDir
  | curDir
  | parentDir
  | normal (s : String)
deriving DecidableEq, Repr

structure RPath where
  absolute : Bool
  comps : List Comp
deriving DecidableEq, Repr

/-- Rust's component iterator drops `.` components except a leading one in
a relative path (`"./a"` keeps it, `"a/./b"` and `"/./a"` drop it). -/
def normComps (absolute : Bool) : List Comp → List Comp
  | [] => []
  | c :: rest =>
    let tail := rest.filter (fun x => x ≠ Comp.curDir)
    if c = Comp.curDir then (if absolute then tail else Comp.curDir :: tail)
    else c :: tail

/-- Split a string on `/` (structural recursion over the character list,
mirroring byte-wise path splitting). -/
def splitSlashAux : List Char → List Char → List String
  | [], acc => [String.mk acc.reverse]
  | c :: cs, acc =>
    if c = '/' then String.mk acc.reverse :: splitSlashAux cs []
    else splitSlashAux cs (c :: acc)

def compOfString (s : String) : Comp :=
  if s = "." then Comp.curDir
  else if s = ".." then Comp.parentDir
  else Comp.normal s

/-- Parse a string into the component view Rust's `Path` exposes. -/
def parsePath (s : String) : RPath :=
  let absolute := s.data.head? = some '/'
  let pieces := (splitSlashAux s.data []).filter (fun p => p ≠ "")
  ⟨absolute, normComps absolute (pieces.map compOfString)⟩

/-- `Path::join` / `PathBuf::push`: an absolute right-hand side replaces
the left-hand side; otherwise the components are appended (and the
now-non-leading `.` components disappear from the component view). -/
def joinPath (base p : RPath) : RPath :=
  if p.absolute then p
  else ⟨base.absolute, normComps base.absolute (base.comps ++ p.comps)⟩

/-- One step of the `path_clean` crate's algorithm: skip `.`; on `..` pop
a trailing normal component, do nothing at the root of an absolute path,
and otherwise keep the `..`; keep everything else.  `out` is the output
stack in reverse order. -/
def cleanStep (absolute : Bool) (out : List Comp) (c : Comp) : List Comp :=
  match c with
  | Comp.curDir => out
  | Comp.parentDir =>
    match out with
    | Comp.normal _ :: rest => rest
    | x :: xs => Comp.parentDir :: x :: xs
    | [] => if absolute then [] else [Comp.parentDir]
  | c => c :: out

/-- `path_clean::clean`: lexical normalization; an empty relative result
becomes `"."`. -/
def clean (p : RPath) : RPath :=
  let out := (p.comps.foldl (cleanStep p.absolute) []).reverse
  if out.isEmpty && !p.absolute then ⟨false, [Comp.curDir]⟩
  else ⟨p.absolute, out⟩

/-- The component sequence Rust's iterator yields, including the
`RootDir` marker of absolute paths. -/
def rootedComps (p : RPath) : List Comp :=
  if p.absolute then Comp.rootDir :: p.comps else p.comps

/-- `Path::starts_with`: whole-component prefix test. -/
def pathStartsWith (p base : RPath) : Bool :=
  (rootedComps base).isPrefixOf (rootedComps p)

/-- `Path::file_name`: the final component when it is a normal one. -/
def RPath.file_name (p : RPath) : Option String :=
  match p.comps.getLast? with
  | some (Comp.normal s) => some s
  | _ => none

/-! ## The two sandbox resolvers of the source -/

/-- `FsFileStore::full_path` (src/file_store.rs:110): join, clean, then
require the result to still start with the base directory and to have a
file name. -/
def full_path (base_path : RPath) (path : RPath) : Option RPath :=
  let combined := clean (joinPath base_path path)
  if pathStartsWith combined base_path && (combined.file_name).isSome then
    some combined
  else
    none

/-- `secure_virtual_path` (src/routes/serve_files.rs:61): join, clean,
then require only the base-directory prefix. -/
def secure_virtual_path (base : RPath) (user_input : String) : Option RPath :=
  let combined := clean (joinPath base (parsePath user_input))
  if pathStartsWith combined base then some combined else none

/-! ## CacheMap (src/cache_map.rs)

`Instant` and `Duration` are natural numbers; `now` is passed explicitly
to the operations that call `Instant::now()`.  The backing `HashMap` is
an association list with unique keys; its order models the hash map's
(unspecified, per-run deterministic) iteration order. -/

/-! Association lists with unique keys model both the cache's `HashMap`
and the filesystem.  The list order models iteration order. -/

/-- Map lookup (`HashMap::get`). -/
def alistGet {α β : Type} [DecidableEq α] (l : List (α × β)) (k : α) : Option β :=
  (l.find? (fun p => p.1 = k)).map (fun p => p.2)

/-- Map removal (`HashMap::remove`, dropping the removed value). -/
def alistRemove {α β : Type} [DecidableEq α] (l : List (α × β)) (k : α) :
    List (α × β) :=
  l.filter (fun p => p.1 ≠ k)

/-- Map insertion (`HashMap::insert`): replace the value of an existing
key in place, otherwise add the binding. -/
def alistInsert {α β : Type} [DecidableEq α] : List (α × β) → α → β → List (α × β)
  | [], k, v => [(k, v)]
  | p :: rest, k, v => if p.1 = k then (k, v) :: rest else p :: alistInsert rest k v

/-- In-place mutation of one key's value (`HashMap::get_mut`). -/
def alistAdjust {α β : Type} [DecidableEq α] (l : List (α × β)) (k : α) (f : β → β) :
    List (α × β) :=
  l.map (fun p => if p.1 = k then (p.1, f p.2) else p)

structure CacheEntry (V : Type) where
  inner : V
  last_accessed : Nat
  expires_at : Nat
deriving DecidableEq, Repr

/-- `HashMap::get`. -/
def mapGet {K V : Type} [DecidableEq K] (l : List (K × CacheEntry V)) (k : K) :
    Option (CacheEntry V) :=
  alistGet l k

/-- `HashMap::remove` (dropping the removed value). -/
def mapRemove {K V : Type} [DecidableEq K] (l : List (K × CacheEntry V)) (k : K) :
    List (K × CacheEntry V) :=
  alistRemove l k

/-- `HashMap::insert`. -/
def mapInsert {K V : Type} [DecidableEq K] (l : List (K × CacheEntry V)) (k : K)
    (e : CacheEntry V) : List (K × CacheEntry V) :=
  alistInsert l k e

/-- In-place mutation through `HashMap::get_mut`. -/
def mapAdjust {K V : Type} [DecidableEq K] (l : List (K × CacheEntry V)) (k : K)
    (f : CacheEntry V → CacheEntry V) : List (K × CacheEntry V) :=
  alistAdjust l k f

/-- `Iterator::min_by_key` over the map entries: the first element (in
iteration order) whose key function is minimal, `None` on an empty map.
Rust's `min_by_key` keeps the earlier element on ties, so the fold only
replaces the candidate on a strict decrease. -/
def min_by_key {K V : Type} (l : List (K × CacheEntry V)) :
    Option (K × CacheEntry V) :=
  match l with
  | [] => none
  | p :: rest =>
    some (rest.foldl
      (fun best q => if q.2.last_accessed < best.2.last_accessed then q else best) p)

structure CacheMap (K V : Type) where
  inner : List (K × CacheEntry V)
  default_ttl : Nat
  max_size : Nat
deriving DecidableEq, Repr

namespace CacheMap

/-- `CacheMap::new`: TTL one hour (in seconds), capacity 100. -/
def new (K V : Type) : CacheMap K V :=
  { default_ttl := 60 * 60, max_size := 100, inner := [] }

def with_ttl {K V : Type} (m : CacheMap K V) (ttl : Nat) : CacheMap K V :=
  { m with default_ttl := ttl }

def with_max_size {K V : Type} (m : CacheMap K V) (max_size : Nat) : CacheMap K V :=
  { m with max_size := max_size }

/-- `CacheMap::get` at time `now`: expiration check (and removal) first,
then the recency update.  Returns the looked-up value and the new cache
state. -/
def get {K V : Type} [DecidableEq K] (m : CacheMap K V) (now : Nat) (k : K) :
    Option V × CacheMap K V :=
  match mapGet m.inner k with
  | some entry =>
    if entry.expires_at ≤ now then
      (none, { m with inner := mapRemove m.inner k })
    else
      (some entry.inner,
       { m with inner := mapAdjust m.inner k (fun e => { e with last_accessed := now }) })
  | none => (none, m)

/-- `CacheMap::evict_lru`: remove the first entry with minimal
`last_accessed`, if any. -/
def evict_lru {K V : Type} [DecidableEq K] (m : CacheMap K V) : CacheMap K V :=
  match (min_by_key m.inner).map (fun p => p.1) with
  | some key => { m with inner := mapRemove m.inner key }
  | none => m

/-- `CacheMap::insert` at time `now`: evict the LRU entry when at or over
capacity, then insert the fresh entry (with `expires_at = now +
default_ttl`). -/
def insert {K V : Type} [DecidableEq K] (m : CacheMap K V) (now : Nat) (k : K)
    (v : V) : CacheMap K V :=
  let entry : CacheEntry V := { inner := v, last_accessed := now, expires_at := now + m.default_ttl }
  let m1 := if m.max_size ≤ m.inner.length then m.evict_lru else m
  { m1 with inner := mapInsert m1.inner k entry }

end CacheMap

/-- A sequence of `get` calls, each with its own clock reading. -/
def getSeq {K V : Type} [DecidableEq K] (m : CacheMap K V) (ops : List (Nat × K)) :
    CacheMap K V :=
  ops.foldl (fun m op => (m.get op.1 op.2).2) m

/-- A sequence of `insert` calls, each with its own clock reading. -/
def insertSeq {K V : Type} [DecidableEq K] (m : CacheMap K V)
    (ops : List (Nat × K × V)) : CacheMap K V :=
  ops.foldl (fun m op => m.insert op.1 op.2.1 op.2.2) m

/-! ## SHA-256 (the `sha2` crate's `Sha256`, and `sha256::digest`)

Bytes and 32-bit words are natural numbers reduced modulo `2 ^ 32` where
overflow matters.  The streaming `Digest` API is modelled by a state
that accumulates the fed bytes; `finalize` runs the concrete SHA-256
compression over the accumulated message. -/

def w32 (n : Nat) : Nat := n % 4294967296

def add32 (a b : Nat) : Nat := (a + b) % 4294967296

def rotr32 (n x : Nat) : Nat := w32 ((x >>> n) ||| (x <<< (32 - n)))

def xor32 (a b : Nat) : Nat := a ^^^ b

def not32 (x : Nat) : Nat := x ^^^ 4294967295

def shaK : List Nat :=
  [1116352408, 1899447441, 3049323471, 3921009573, 961987163,
   1508970993, 2453635748, 2870763221, 3624381080, 310598401,
   607225278, 1426881987, 1925078388, 2162078206, 2614888103,
   3248222580, 3835390401, 4022224774, 264347078, 604807628,
   770255983, 1249150122, 1555081692, 1996064986, 2554220882,
   2821834349, 2952996808, 3210313671, 3336571891, 3584528711,
   113926993, 338241895, 666307205, 773529912, 1294757372,
   1396182291, 1695183700, 1986661051, 2177026350, 2456956037,
   2730485921, 2820302411, 3259730800, 3345764771, 3516065817,
   3600352804, 4094571909, 275423344, 430227734, 506948616,
   659060556, 883997877, 958139571, 1322822218, 1537002063,
   1747873779, 1955562222, 2024104815, 2227730452, 2361852424,
   2428436474, 2756734187, 3204031479, 3329325298]

def shaInitH : List Nat :=
  [1779033703, 3144134277, 1013904242, 2773480762,
   1359893119, 2600822924, 528734635, 1541459225]

/-- Big-endian bytes of a 64-bit value. -/
def be64 (n : Nat) : List Nat :=
  [(n >>> 56) % 256, (n >>> 48) % 256, (n >>> 40) % 256, (n >>> 32) % 256,
   (n >>> 24) % 256, (n >>> 16) % 256, (n >>> 8) % 256, n % 256]

/-- Big-endian bytes of a 32-bit word. -/
def be32 (n : Nat) : List Nat :=
  [(n >>> 24) % 256, (n >>> 16) % 256, (n >>> 8) % 256, n % 256]

/-- Group a byte list into big-endian 32-bit words (four bytes each). -/
def wordsOfBytes : List Nat → List Nat
  | b0 :: b1 :: b2 :: b3 :: rest =>
    (b0 <<< 24 ||| b1 <<< 16 ||| b2 <<< 8 ||| b3) :: wordsOfBytes rest
  | _ => []

/-- SHA-256 message-schedule extension from 16 to 64 words. -/
def shaSchedule (w0 : Array Nat) : Array Nat :=
  (List.range 48).foldl
    (fun w _ =>
      let n := w.size
      let x15 := w.getD (n - 15) 0
      let x2 := w.getD (n - 2) 0
      let s0 := xor32 (xor32 (rotr32 7 x15) (rotr32 18 x15)) (x15 >>> 3)
      let s1 := xor32 (xor32 (rotr32 17 x2) (rotr32 19 x2)) (x2 >>> 10)
      w.push (add32 (add32 (w.getD (n - 16) 0) s0) (add32 (w.getD (n - 7) 0) s1)))
    w0

/-- One compression round. -/
def shaRound (w : Array Nat) (st : List Nat) (i : Nat) : List Nat :=
  match st with
  | [a, b, c, d, e, f, g, h] =>
    let s1 := xor32 (xor32 (rotr32 6 e) (rotr32 11 e)) (rotr32 25 e)
    let ch := xor32 (e &&& f) (not32 e &&& g)
    let temp1 := add32 (add32 h s1) (add32 (add32 ch (shaK.getD i 0)) (w.getD i 0))
    let s0 := xor32 (xor32 (rotr32 2 a) (rotr32 13 a)) (rotr32 22 a)
    let maj := xor32 (xor32 (a &&& b) (a &&& c)) (b &&& c)
    let temp2 := add32 s0 maj
    [add32 temp1 temp2, a, b, c, add32 d temp1, e, f, g]
  | st => st

/-- Compress one 64-byte block into the running hash state. -/
def shaCompress (hs : List Nat) (block : List Nat) : List Nat :=
  let w := shaSchedule (Array.mk (wordsOfBytes block))
  let st := (List.range 64).foldl (shaRound w) hs
  (hs.zip st).map (fun p => add32 p.1 p.2)

/-- Fixed-size chunking, structurally recursive on the byte list.
`acc` is the current partial chunk in reverse; `room` counts how many
bytes the current chunk still takes; a fresh chunk takes `sizePred + 1`
bytes in total. -/
def chunksGo (sizePred : Nat) : List Nat → Nat → List Nat → List (List Nat)
  | [], _, acc => if acc.isEmpty then [] else [acc.reverse]
  | b :: rest, Nat.succ room, acc => chunksGo sizePred rest room (b :: acc)
  | b :: rest, 0, acc => acc.reverse :: chunksGo sizePred rest sizePred [b]

/-- Split a byte list into 64-byte blocks. -/
def chunks64 (l : List Nat) : List (List Nat) := chunksGo 63 l 64 []

/-- SHA-256 of a byte sequence, as 32 bytes. -/
def sha256 (msg : List Nat) : List Nat :=
  let padZeros := (120 - ((msg.length + 1) % 64)) % 64
  let padded := msg ++ (0x80 :: List.replicate padZeros 0) ++ be64 (8 * msg.length)
  let hs := (chunks64 padded).foldl shaCompress shaInitH
  hs.flatMap be32

def hexDigit (n : Nat) : Char :=
  if n < 10 then Char.ofNat (48 + n) else Char.ofNat (87 + n)

/-- Two lowercase hex characters for one byte. -/
def byteToHex (b : Nat) : List Char :=
  [hexDigit (b / 16), hexDigit (b % 16)]

/-- Lowercase hex encoding of a byte sequence (what both the `{:x}`
formatting of a `sha2` digest and `sha256::digest` produce). -/
def hexOfBytes (bs : List Nat) : String :=
  String.mk (bs.flatMap byteToHex)

/-- The streaming `sha2::Sha256` digest state: `update` feeds bytes,
`finalize` hashes everything fed so far. -/
structure Sha256 where
  buffer : List Nat
deriving DecidableEq, Repr

def Sha256.new : Sha256 := ⟨[]⟩

def Sha256.update (d : Sha256) (bytes : List Nat) : Sha256 := ⟨d.buffer ++ bytes⟩

def Sha256.finalize (d : Sha256) : List Nat := sha256 d.buffer

/-! ## Filesystem model and FsFileStore (src/file_store.rs)

The filesystem is an association list from paths to nodes.  Directories
are implicit (`create_dir_all` always succeeds in the model).  A sidecar
written by `upload` holds a `FileMetadata` record; `FsNode.metaFile`
stands for a file whose bytes are the `serde_json` serialization of that
record, so reading it back through `serde_json::from_reader` yields the
record and reading any other node fails to parse. -/

structure FileMetadata where
  hash : String
  size_bytes : Nat
deriving DecidableEq, Repr

/-- `FileMetadata::default()` (all serde defaults). -/
def FileMetadata.default : FileMetadata := { hash := "", size_bytes := 0 }

/-- `FileMetadata::hash_to_hex`: `format!("\x7b:x\x7d", digest.finalize())`. -/
def FileMetadata.hash_to_hex (digest : Sha256) : String :=
  hexOfBytes digest.finalize

inductive FsNode where
  | file (content : List Nat)
  | metaFile (meta : FileMetadata)
  | symlink (target : RPath)
deriving DecidableEq, Repr

structure Fs where
  entries : List (RPath × FsNode)
deriving DecidableEq, Repr

def fsGet (fs : Fs) (p : RPath) : Option FsNode :=
  alistGet fs.entries p

/-- Create or truncate-and-overwrite the node at `p`. -/
def fsWrite (fs : Fs) (p : RPath) (n : FsNode) : Fs :=
  ⟨alistInsert fs.entries p n⟩

/-- `fs::remove_file` (in the model, removal always succeeds). -/
def fsRemove (fs : Fs) (p : RPath) : Fs :=
  ⟨alistRemove fs.entries p⟩

/-- Append bytes through an open write handle to the file at `p`. -/
def fsAppend (fs : Fs) (p : RPath) (b : List Nat) : Fs :=
  match fsGet fs p with
  | some (FsNode.file c) => fsWrite fs p (FsNode.file (c ++ b))
  | _ => fs

/-- `Path::is_file`: follows symbolic links (up to the 40-link limit the
OS imposes), true when the deref chain ends in a regular file. -/
def fsIsFileAux (fs : Fs) : Nat → RPath → Bool
  | 0, _ => false
  | fuel + 1, p =>
    match fsGet fs p with
    | some (FsNode.file _) => true
    | some (FsNode.metaFile _) => true
    | some (FsNode.symlink t) => fsIsFileAux fs fuel t
    | none => false

def fsIsFile (fs : Fs) (p : RPath) : Bool := fsIsFileAux fs 40 p

def METADATA_FILE_EXT : String := ".metadata.json"

/-- `metadata_path` (src/file_store.rs:256): append the sidecar suffix to
the file name. -/
def metadata_path (p : RPath) : RPath :=
  match p.comps.getLast? with
  | some (Comp.normal s) => ⟨p.absolute, p.comps.dropLast ++ [Comp.normal (s ++ METADATA_FILE_EXT)]⟩
  | _ => ⟨p.absolute, p.comps ++ [Comp.normal METADATA_FILE_EXT]⟩

structure FsFileStore where
  base_path : RPath
deriving DecidableEq, Repr

/-- `str::to_ascii_lowercase` on the characters of a name. -/
def asciiLower (s : String) : String :=
  String.mk (s.data.map Char.toLower)

def strEndsWith (s suffix : String) : Bool :=
  suffix.data.isSuffixOf s.data

/-- `FsFileStore::is_valid_path` (src/file_store.rs:123): reject names
with the sidecar suffix and paths under the reserved `api` namespace.
(The source unwraps `full_path("api")`; for the bases the theorems use
it is `some`, and the model treats a `none` there as rejection.) -/
def FsFileStore.is_valid_path (store : FsFileStore) (path : RPath) : Bool :=
  match path.file_name with
  | none => false
  | some name =>
    let nameLower := asciiLower name
    if strEndsWith nameLower METADATA_FILE_EXT then false
    else
      match full_path store.base_path (parsePath "api") with
      | some api_path => !(pathStartsWith path api_path)
      | none => false

def FsFileStore.full_path (store : FsFileStore) (p : RPath) : Option RPath :=
  SFS.full_path store.base_path p

/-- `FsFileStore::exists` (src/file_store.rs:147). -/
def FsFileStore.exists_file (store : FsFileStore) (fs : Fs) (p : RPath) : Bool :=
  match store.full_path p with
  | some q => fsIsFile fs q
  | none => false

/-- The observable outcomes of one iteration of the upload copy loop:
a successful read whose bytes are then written successfully, a failed
read, or a successful read followed by a failed write. -/
inductive ReadEvent where
  | chunk (bytes : List Nat)
  | readErr
  | writeErr (bytes : List Nat)
deriving DecidableEq, Repr

inductive StoreError where
  | invalidPlace
  | invalidName
  | readFailed
  | writeFailed
deriving DecidableEq, Repr

/-- The copy loop of `FsFileStore::upload` (src/file_store.rs:192-212):
on success accumulate bytes into the destination file, the digest and the
byte counter; on a read or write error remove the partial destination
file (best effort, its own failure ignored) and return the original
error. -/
def uploadLoop (fs : Fs) (path : RPath) (digest : Sha256) (written : Nat) :
    List ReadEvent → Fs × Except StoreError (Sha256 × Nat)
  | [] => (fs, Except.ok (digest, written))
  | ReadEvent.chunk b :: rest =>
    uploadLoop (fsAppend fs path b) path (digest.update b) (written + b.length) rest
  | ReadEvent.readErr :: _ => (fsRemove fs path, Except.error StoreError.readFailed)
  | ReadEvent.writeErr _ :: _ => (fsRemove fs path, Except.error StoreError.writeFailed)

/-- `FsFileStore::upload` (src/file_store.rs:168): sandbox, validate,
create the destination, run the copy loop, then write the metadata
sidecar with the hex digest and the byte count. -/
def FsFileStore.upload (store : FsFileStore) (fs : Fs) (p : RPath)
    (events : List ReadEvent) : Fs × Except StoreError FileMetadata :=
  match store.full_path p with
  | none => (fs, Except.error StoreError.invalidPlace)
  | some path =>
    if !(store.is_valid_path path) then (fs, Except.error StoreError.invalidName)
    else
      let fs1 := fsWrite fs path (FsNode.file [])
      match uploadLoop fs1 path Sha256.new 0 events with
      | (fs2, Except.error e) => (fs2, Except.error e)
      | (fs2, Except.ok (digest, written)) =>
        let metadata : FileMetadata :=
          { hash := FileMetadata.hash_to_hex digest, size_bytes := written }
        (fsWrite fs2 (metadata_path path) (FsNode.metaFile metadata), Except.ok metadata)

/-- `FsFileStore::remove` (src/file_store.rs:227): sandbox, validate,
succeed as a no-op when the file does not exist, otherwise delete the
file and, when present, its sidecar. -/
def FsFileStore.remove (store : FsFileStore) (fs : Fs) (p : RPath) :
    Fs × Except StoreError Unit :=
  match store.full_path p with
  | none => (fs, Except.error StoreError.invalidPlace)
  | some path =>
    if !(store.is_valid_path path) then (fs, Except.error StoreError.invalidName)
    else if !(store.exists_file fs path) then (fs, Except.ok ())
    else
      let fs1 := fsRemove fs path
      let mp := metadata_path path
      if fsIsFile fs1 mp then (fsRemove fs1 mp, Except.ok ()) else (fs1, Except.ok ())

/-- `FsFile::read_metadata` composed with `unwrap_or_default`
(src/file_store.rs:283-291). -/
def read_metadata (fs : Fs) (mp : RPath) : Option FileMetadata :=
  match fsGet fs mp with
  | some (FsNode.metaFile m) => some m
  | _ => none

structure FsFile where
  path : RPath
  metadata_path : RPath
  metadata : FileMetadata
deriving DecidableEq, Repr

/-- `FsFile::new_existing` (src/file_store.rs:273). -/
def FsFile.new_existing (fs : Fs) (file_path : RPath) : FsFile :=
  { path := file_path
    metadata_path := SFS.metadata_path file_path
    metadata := (read_metadata fs (SFS.metadata_path file_path)).getD FileMetadata.default }

/-- Split a byte list into the 8192-byte chunks a `BufReader` with the
source's buffer produces. -/
def chunks8192 (l : List Nat) : List (List Nat) := chunksGo 8191 l 8192 []

/-- `FsFile::bytes_iter` (src/file_store.rs:305) in the error-free case:
the chunk sequence an iteration over the on-disk content yields. -/
def FsFile.bytes_iter (fs : Fs) (f : FsFile) : List (List Nat) :=
  match fsGet fs f.path with
  | some (FsNode.file c) => chunks8192 c
  | _ => []

/-- The event sequence a fully successful transfer of `bs` produces. -/
def eventsOfBytes (bs : List Nat) : List ReadEvent :=
  (chunks8192 bs).map ReadEvent.chunk

/-! ## Conditional GET on the cache path (src/routes/serve_files.rs,
src/state.rs) -/

/-- `CachedFileEntry` (src/state.rs): the in-memory bytes and their
`sha256::digest` hex hash, computed once at construction. -/
structure CachedFileEntry where
  hash : String
  bytes : List Nat
deriving DecidableEq, Repr

def CachedFileEntry.new (bytes : List Nat) : CachedFileEntry :=
  { hash := hexOfBytes (sha256 bytes), bytes := bytes }

/-- The parts of an HTTP response the claims are about.  On the cache
path the base response built by `serve_file` has status 200 (it starts
from `HttpResponse::Ok()`); `NotModified().finish()` is 304 with an empty
body. -/
structure HttpResponseM where
  status : Nat
  etag : Option String
  body : List Nat
deriving DecidableEq, Repr

/-- `response_from_file` (src/routes/serve_files.rs:163): compare the
request's `If-None-Match` value against the entry's hash; on a match
answer 304 with no body, otherwise answer the base (200) response with
the full bytes and an `ETag` header holding the hash. -/
def response_from_file (if_none_match : Option String) (file : CachedFileEntry) :
    HttpResponseM :=
  let isMatch : Bool := match if_none_match with
    | some t => decide (t = file.hash)
    | none => false
  if isMatch then { status := 304, etag := none, body := [] }
  else { status := 200, etag := some file.hash, body := file.bytes }

/-! ## Auxiliary definitions used by the proofs -/

/-- The fold step of `min_by_key`. -/
def minStep {K V : Type} :
    (K × CacheEntry V) → (K × CacheEntry V) → (K × CacheEntry V) :=
  fun best q => if q.2.last_accessed < best.2.last_accessed then q else best

/-- Paths whose components are all plain names. -/
def OnlyNormal (l : List Comp) : Prop := ∀ c ∈ l, ∃ s, c = Comp.normal s

/-! ## Association-list lemmas -/

section AListLemmas

variable {α β : Type} [DecidableEq α]

theorem alistGet_nil (i : α) : alistGet ([] : List (α × β)) i = none := rfl

theorem alistGet_cons (p : α × β) (rest : List (α × β)) (i : α) :
    alistGet (p :: rest) i = if p.1 = i then some p.2 else alistGet rest i := by
  by_cases h : p.1 = i <;> simp [alistGet, List.find?, h]

theorem alistRemove_cons (p : α × β) (rest : List (α × β)) (k : α) :
    alistRemove (p :: rest) k
      = if p.1 = k then alistRemove rest k else p :: alistRemove rest k := by
  by_cases h : p.1 = k <;> simp [alistRemove, List.filter, h]

theorem alistInsert_cons (p : α × β) (rest : List (α × β)) (k : α) (v : β) :
    alistInsert (p :: rest) k v
      = if p.1 = k then (k, v) :: rest else p :: alistInsert rest k v := rfl

theorem alistAdjust_cons (p : α × β) (rest : List (α × β)) (k : α) (f : β → β) :
    alistAdjust (p :: rest) k f
      = (if p.1 = k then (p.1, f p.2) else p) :: alistAdjust rest k f := by
  simp [alistAdjust]

theorem alistGet_insert_self (l : List (α × β)) (k : α) (v : β) :
    alistGet (alistInsert l k v) k = some v := by
  induction l with
  | nil => simp [alistInsert, alistGet_cons, alistGet_nil]
  | cons p rest ih =>
    rw [alistInsert_cons]
    by_cases h : p.1 = k
    · simp [h, alistGet_cons]
    · rw [if_neg h, alistGet_cons, if_neg h]
      exact ih

theorem alistGet_insert_ne (l : List (α × β)) (k i : α) (v : β) (h : i ≠ k) :
    alistGet (alistInsert l k v) i = alistGet l i := by
  have hki : ¬ k = i := fun hh => h hh.symm
  induction l with
  | nil => simp [alistInsert, alistGet_cons, alistGet_nil, hki]
  | cons p rest ih =>
    rw [alistInsert_cons]
    by_cases hp : p.1 = k
    · rw [if_pos hp, alistGet_cons, alistGet_cons, if_neg hki, if_neg]
      rw [hp]
      exact hki
    · rw [if_neg hp, alistGet_cons, alistGet_cons]
      by_cases hq : p.1 = i
      · rw [if_pos hq, if_pos hq]
      · rw [if_neg hq, if_neg hq]
        exact ih

theorem alistGet_remove_self (l : List (α × β)) (k : α) :
    alistGet (alistRemove l k) k = none := by
  induction l with
  | nil => simp [alistRemove, alistGet_nil]
  | cons p rest ih =>
    rw [alistRemove_cons]
    by_cases h : p.1 = k
    · rw [if_pos h]; exact ih
    · rw [if_neg h, alistGet_cons, if_neg h]; exact ih

theorem alistGet_remove_ne (l : List (α × β)) (k i : α) (h : i ≠ k) :
    alistGet (alistRemove l k) i = alistGet l i := by
  induction l with
  | nil => simp [alistRemove, alistGet_nil]
  | cons p rest ih =>
    rw [alistRemove_cons]
    by_cases hp : p.1 = k
    · have hik : ¬ p.1 = i := fun hh => h (hh ▸ hp)
      rw [if_pos hp, alistGet_cons, if_neg hik]
      exact ih
    · rw [if_neg hp, alistGet_cons, alistGet_cons]
      by_cases hq : p.1 = i
      · rw [if_pos hq, if_pos hq]
      · rw [if_neg hq, if_neg hq]; exact ih

theorem alistGet_adjust_self (l : List (α × β)) (k : α) (f : β → β) (e : β)
    (h : alistGet l k = some e) :
    alistGet (alistAdjust l k f) k = some (f e) := by
  induction l with
  | nil => simp [alistGet_nil] at h
  | cons p rest ih =>
    rw [alistGet_cons] at h
    rw [alistAdjust_cons]
    by_cases hp : p.1 = k
    · rw [if_pos hp] at h ⊢
      rw [alistGet_cons, if_pos hp]
      simp at h
      rw [h]
    · rw [if_neg hp] at h ⊢
      rw [alistGet_cons, if_neg hp]
      exact ih h

theorem alistGet_adjust_ne (l : List (α × β)) (k i : α) (f : β → β) (h : i ≠ k) :
    alistGet (alistAdjust l k f) i = alistGet l i := by
  induction l with
  | nil => simp [alistAdjust, alistGet_nil]
  | cons p rest ih =>
    rw [alistAdjust_cons]
    by_cases hp : p.1 = k
    · have hik : ¬ p.1 = i := fun hh => h (hh ▸ hp)
      rw [if_pos hp, alistGet_cons, alistGet_cons, if_neg hik, if_neg hik]
      exact ih
    · rw [if_neg hp, alistGet_cons, alistGet_cons]
      by_cases hq : p.1 = i
      · rw [if_pos hq, if_pos hq]
      · rw [if_neg hq, if_neg hq]; exact ih

theorem length_alistInsert_mem (l : List (α × β)) (k : α) (v : β)
    (h : (alistGet l k).isSome) :
    (alistInsert l k v).length = l.length := by
  induction l with
  | nil => simp [alistGet_nil] at h
  | cons p rest ih =>
    rw [alistGet_cons] at h
    rw [alistInsert_cons]
    by_cases hp : p.1 = k
    · rw [if_pos hp]; simp
    · rw [if_neg hp] at h
      rw [if_neg hp]
      simp only [List.length_cons]
      rw [ih h]

theorem length_alistInsert_new (l : List (α × β)) (k : α) (v : β)
    (h : alistGet l k = none) :
    (alistInsert l k v).length = l.length + 1 := by
  induction l with
  | nil => simp [alistInsert]
  | cons p rest ih =>
    rw [alistGet_cons] at h
    rw [alistInsert_cons]
    by_cases hp : p.1 = k
    · rw [if_pos hp] at h; simp at h
    · rw [if_neg hp] at h
      rw [if_neg hp]
      simp only [List.length_cons]
      rw [ih h]

theorem length_alistInsert_le (l : List (α × β)) (k : α) (v : β) :
    (alistInsert l k v).length ≤ l.length + 1 := by
  cases h : alistGet l k with
  | none => simp [length_alistInsert_new l k v h]
  | some e => simp [length_alistInsert_mem l k v (by simp [h])]

theorem length_alistRemove_le (l : List (α × β)) (k : α) :
    (alistRemove l k).length ≤ l.length :=
  List.length_filter_le _ l

theorem length_alistRemove_lt (l : List (α × β)) (k : α) (e : β)
    (h : alistGet l k = some e) :
    (alistRemove l k).length < l.length := by
  induction l with
  | nil => simp [alistGet_nil] at h
  | cons p rest ih =>
    rw [alistGet_cons] at h
    rw [alistRemove_cons]
    by_cases hp : p.1 = k
    · rw [if_pos hp]
      have := length_alistRemove_le rest k
      simp only [List.length_cons]
      omega
    · rw [if_neg hp] at h
      rw [if_neg hp]
      simp only [List.length_cons]
      have := ih h
      omega

theorem alistGet_eq_none_iff (l : List (α × β)) (k : α) :
    alistGet l k = none ↔ k ∉ l.map Prod.fst := by
  induction l with
  | nil => simp [alistGet_nil]
  | cons p rest ih =>
    rw [alistGet_cons]
    by_cases hp : p.1 = k
    · simp [hp]
    · rw [if_neg hp]
      simp only [List.map_cons, List.mem_cons]
      rw [ih]
      constructor
      · intro h hh
        rcases hh with hh | hh
        · exact hp hh.symm
        · exact h hh
      · intro h hh
        exact h (Or.inr hh)

theorem alistGet_of_mem_nodup (l : List (α × β)) (k : α) (e : β)
    (hmem : (k, e) ∈ l) (hnd : (l.map Prod.fst).Nodup) :
    alistGet l k = some e := by
  induction l with
  | nil => simp at hmem
  | cons p rest ih =>
    simp only [List.map_cons, List.nodup_cons] at hnd
    rw [alistGet_cons]
    rcases List.mem_cons.mp hmem with h | h
    · subst h
      simp
    · have hp : p.1 ≠ k := by
        intro hh
        exact hnd.1 (hh ▸ (List.mem_map.mpr ⟨(k, e), h, rfl⟩))
      rw [if_neg hp]
      exact ih h hnd.2

theorem length_alistRemove_nodup (l : List (α × β)) (k : α) (e : β)
    (hmem : (k, e) ∈ l) (hnd : (l.map Prod.fst).Nodup) :
    (alistRemove l k).length + 1 = l.length := by
  induction l with
  | nil => simp at hmem
  | cons p rest ih =>
    simp only [List.map_cons, List.nodup_cons] at hnd
    rw [alistRemove_cons]
    rcases List.mem_cons.mp hmem with h | h
    · subst h
      rw [if_pos rfl]
      have hrest : alistRemove rest k = rest := by
        apply List.filter_eq_self.mpr
        intro q hq
        simp only [decide_eq_true_eq]
        intro hh
        exact hnd.1 (hh ▸ (List.mem_map.mpr ⟨q, hq, rfl⟩))
      rw [hrest]
      simp
    · have hp : p.1 ≠ k := by
        intro hh
        exact hnd.1 (hh ▸ (List.mem_map.mpr ⟨(k, e), h, rfl⟩))
      rw [if_neg hp]
      simp only [List.length_cons]
      rw [← ih h hnd.2]

theorem alistGet_isSome_of_mem (l : List (α × β))
    (k : α) (e : β) (hmem : (k, e) ∈ l) : ∃ e2, alistGet l k = some e2 := by
  induction l with
  | nil => simp at hmem
  | cons p rest ih =>
    rw [alistGet_cons]
    by_cases hp : p.1 = k
    · exact ⟨p.2, by rw [if_pos hp]⟩
    · rcases List.mem_cons.mp hmem with h | h
      · exact absurd (by rw [← h]) hp
      · rw [if_neg hp]
        exact ih h

theorem alistRemove_of_not_mem (l : List (α × β)) (k : α)
    (h : alistGet l k = none) : alistRemove l k = l := by
  apply List.filter_eq_self.mpr
  intro q hq
  simp only [decide_eq_true_eq]
  intro hh
  exact ((alistGet_eq_none_iff l k).mp h) (hh ▸ (List.mem_map.mpr ⟨q, hq, rfl⟩))

theorem alistInsert_self_eq {α β : Type} [DecidableEq α] (l : List (α × β)) (k : α)
    (v : β) (h : alistGet l k = some v) : alistInsert l k v = l := by
  induction l with
  | nil => simp [alistGet_nil] at h
  | cons p rest ih =>
    rw [alistGet_cons] at h
    rw [alistInsert_cons]
    by_cases hp : p.1 = k
    · rw [if_pos hp] at h
      simp at h
      rw [if_pos hp, ← hp, ← h]
    · rw [if_neg hp] at h
      rw [if_neg hp, ih h]

theorem alistInsert_insert {α β : Type} [DecidableEq α] (l : List (α × β)) (k : α)
    (v v' : β) : alistInsert (alistInsert l k v) k v' = alistInsert l k v' := by
  induction l with
  | nil => simp [alistInsert]
  | cons p rest ih =>
    rw [alistInsert_cons]
    by_cases hp : p.1 = k
    · rw [if_pos hp, alistInsert_cons, if_pos rfl, alistInsert_cons, if_pos hp]
    · rw [if_neg hp, alistInsert_cons, if_neg hp, alistInsert_cons, if_neg hp, ih]

end AListLemmas

/-! ## `min_by_key` lemmas -/

section MinByKey

variable {K V : Type}

theorem foldl_minStep_mem (rest : List (K × CacheEntry V)) :
    ∀ b : K × CacheEntry V, rest.foldl minStep b = b ∨ rest.foldl minStep b ∈ rest := by
  induction rest with
  | nil => intro b; left; rfl
  | cons q rest ih =>
    intro b
    have step : List.foldl minStep b (q :: rest) = List.foldl minStep (minStep b q) rest := rfl
    rw [step]
    rcases ih (minStep b q) with h | h
    · rw [h]
      unfold minStep
      by_cases hlt : q.2.last_accessed < b.2.last_accessed
      · right; rw [if_pos hlt]; exact List.mem_cons_self q rest
      · left; rw [if_neg hlt]
    · right; exact List.mem_cons_of_mem q h

theorem foldl_minStep_le (rest : List (K × CacheEntry V)) :
    ∀ b : K × CacheEntry V,
      (rest.foldl minStep b).2.last_accessed ≤ b.2.last_accessed
        ∧ ∀ q ∈ rest, (rest.foldl minStep b).2.last_accessed ≤ q.2.last_accessed := by
  induction rest with
  | nil => intro b; exact ⟨Nat.le_refl _, by intro q hq; simp at hq⟩
  | cons q rest ih =>
    intro b
    have step : List.foldl minStep b (q :: rest) = List.foldl minStep (minStep b q) rest := rfl
    rw [step]
    obtain ⟨h1, h2⟩ := ih (minStep b q)
    have hmin_b : (minStep b q).2.last_accessed ≤ b.2.last_accessed := by
      unfold minStep
      by_cases hlt : q.2.last_accessed < b.2.last_accessed
      · rw [if_pos hlt]; omega
      · rw [if_neg hlt]
    have hmin_q : (minStep b q).2.last_accessed ≤ q.2.last_accessed := by
      unfold minStep
      by_cases hlt : q.2.last_accessed < b.2.last_accessed
      · rw [if_pos hlt]
      · rw [if_neg hlt]; omega
    refine ⟨Nat.le_trans h1 hmin_b, ?_⟩
    intro r hr
    rcases List.mem_cons.mp hr with h | h
    · subst h; exact Nat.le_trans h1 hmin_q
    · exact h2 r h

theorem min_by_key_eq_foldl (p : K × CacheEntry V) (rest : List (K × CacheEntry V)) :
    min_by_key (p :: rest) = some (rest.foldl minStep p) := rfl

theorem min_by_key_mem (l : List (K × CacheEntry V)) (p : K × CacheEntry V)
    (h : min_by_key l = some p) : p ∈ l := by
  cases l with
  | nil => simp [min_by_key] at h
  | cons q rest =>
    rw [min_by_key_eq_foldl] at h
    have := foldl_minStep_mem rest q
    rcases this with hh | hh
    · rw [hh] at h
      injection h with h
      rw [← h]
      exact List.mem_cons_self q rest
    · injection h with h
      rw [← h]
      exact List.mem_cons_of_mem q hh

theorem min_by_key_min (l : List (K × CacheEntry V)) (p : K × CacheEntry V)
    (h : min_by_key l = some p) :
    ∀ q ∈ l, p.2.last_accessed ≤ q.2.last_accessed := by
  cases l with
  | nil => simp [min_by_key] at h
  | cons q rest =>
    rw [min_by_key_eq_foldl] at h
    injection h with h
    obtain ⟨h1, h2⟩ := foldl_minStep_le rest q
    intro r hr
    rcases List.mem_cons.mp hr with hh | hh
    · subst hh; rw [← h]; exact h1
    · rw [← h]; exact h2 r hh

theorem min_by_key_isSome (l : List (K × CacheEntry V)) (h : l ≠ []) :
    ∃ p, min_by_key l = some p := by
  cases l with
  | nil => exact absurd rfl h
  | cons q rest => exact ⟨rest.foldl minStep q, rfl⟩

end MinByKey

/-! ## Path lemmas -/

theorem mem_normComps (a : Bool) (l : List Comp) (c : Comp)
    (h : c ∈ normComps a l) : c ∈ l := by
  cases l with
  | nil => simp [normComps] at h
  | cons x rest =>
    simp only [normComps] at h
    by_cases hx : x = Comp.curDir
    · rw [if_pos hx] at h
      cases a with
      | true =>
        rw [if_pos rfl] at h
        exact List.mem_cons_of_mem _ (List.mem_of_mem_filter h)
      | false =>
        rw [if_neg (by simp)] at h
        rcases List.mem_cons.mp h with hh | hh
        · exact hh ▸ (hx ▸ List.mem_cons_self x rest)
        · exact List.mem_cons_of_mem _ (List.mem_of_mem_filter hh)
    · rw [if_neg hx] at h
      rcases List.mem_cons.mp h with hh | hh
      · exact hh ▸ List.mem_cons_self x rest
      · exact List.mem_cons_of_mem _ (List.mem_of_mem_filter hh)

theorem cleanStep_onlyNormal (out : List Comp) (c : Comp) (h : OnlyNormal out)
    (hc : c ≠ Comp.rootDir) : OnlyNormal (cleanStep true out c) := by
  cases c with
  | rootDir => exact absurd rfl hc
  | curDir => exact h
  | parentDir =>
    cases out with
    | nil => intro x hx; simp [cleanStep] at hx
    | cons y ys =>
      obtain ⟨s, hs⟩ := h y (List.mem_cons_self y ys)
      subst hs
      intro x hx
      exact h x (List.mem_cons_of_mem _ hx)
  | normal s =>
    intro x hx
    rcases List.mem_cons.mp hx with hh | hh
    · exact ⟨s, hh⟩
    · exact h x hh

theorem foldl_cleanStep_onlyNormal (l : List Comp) (hl : Comp.rootDir ∉ l) :
    ∀ out : List Comp, OnlyNormal out → OnlyNormal (l.foldl (cleanStep true) out) := by
  induction l with
  | nil => intro out h; exact h
  | cons c rest ih =>
    intro out h
    have hc : c ≠ Comp.rootDir := fun hh => hl (hh ▸ List.mem_cons_self c rest)
    have hrest : Comp.rootDir ∉ rest := fun hh => hl (List.mem_cons_of_mem _ hh)
    exact ih hrest (cleanStep true out c) (cleanStep_onlyNormal out c h hc)

theorem clean_abs_eq (p : RPath) (h : p.absolute = true) :
    clean p = ⟨true, (p.comps.foldl (cleanStep true) []).reverse⟩ := by
  unfold clean
  rw [h]
  simp

theorem clean_absolute (p : RPath) : (clean p).absolute = p.absolute := by
  unfold clean
  by_cases h : ((p.comps.foldl (cleanStep p.absolute) []).reverse).isEmpty && !p.absolute
  · rw [if_pos h]
    simp only [Bool.and_eq_true, Bool.not_eq_true'] at h
    rw [h.2]
  · rw [if_neg h]

theorem clean_onlyNormal (p : RPath) (h : p.absolute = true)
    (hnr : Comp.rootDir ∉ p.comps) : OnlyNormal (clean p).comps := by
  rw [clean_abs_eq p h]
  intro c hc
  simp only [List.mem_reverse] at hc
  exact foldl_cleanStep_onlyNormal p.comps hnr [] (by intro x hx; simp at hx) c hc

theorem foldl_cleanStep_normals (l : List Comp) (h : OnlyNormal l) :
    ∀ (a : Bool) (out : List Comp), l.foldl (cleanStep a) out = l.reverse ++ out := by
  induction l with
  | nil => intro a out; simp
  | cons c rest ih =>
    intro a out
    obtain ⟨s, hs⟩ := h c (List.mem_cons_self c rest)
    subst hs
    have hrest : OnlyNormal rest := fun x hx => h x (List.mem_cons_of_mem _ hx)
    have step : List.foldl (cleanStep a) out (Comp.normal s :: rest)
        = List.foldl (cleanStep a) (Comp.normal s :: out) rest := rfl
    rw [step, ih hrest a (Comp.normal s :: out)]
    simp

theorem clean_fix_abs (p : RPath) (habs : p.absolute = true) (h : OnlyNormal p.comps) :
    clean p = p := by
  rw [clean_abs_eq p habs]
  cases p with
  | mk a comps =>
    simp only at habs
    subst habs
    simp only [RPath.mk.injEq, true_and]
    rw [foldl_cleanStep_normals comps h true []]
    simp

theorem joinPath_abs_right (b q : RPath) (h : q.absolute = true) : joinPath b q = q := by
  unfold joinPath
  rw [h]
  simp

theorem joinPath_noRoot (b p : RPath) (hb : Comp.rootDir ∉ b.comps)
    (hp : Comp.rootDir ∉ p.comps) : Comp.rootDir ∉ (joinPath b p).comps := by
  unfold joinPath
  by_cases habs : p.absolute
  · rw [if_pos habs]; exact hp
  · rw [if_neg habs]
    intro h
    have := mem_normComps b.absolute (b.comps ++ p.comps) Comp.rootDir h
    rcases List.mem_append.mp this with hh | hh
    · exact hb hh
    · exact hp hh

theorem full_path_dest (b p q : RPath) (h : full_path b p = some q) :
    clean (joinPath b p) = q ∧ pathStartsWith q b = true
      ∧ (q.file_name).isSome = true := by
  unfold full_path at h
  by_cases hc : pathStartsWith (clean (joinPath b p)) b
      && ((clean (joinPath b p)).file_name).isSome
  · rw [if_pos hc] at h
    injection h with h
    simp only [Bool.and_eq_true] at hc
    exact ⟨h, h ▸ hc.1, h ▸ hc.2⟩
  · rw [if_neg hc] at h
    exact absurd h (by simp)

theorem full_path_intro (b p : RPath)
    (h1 : pathStartsWith (clean (joinPath b p)) b = true)
    (h2 : ((clean (joinPath b p)).file_name).isSome = true) :
    full_path b p = some (clean (joinPath b p)) := by
  unfold full_path
  rw [if_pos (by rw [h1, h2]; rfl)]

theorem full_path_absolute (b p q : RPath) (hb : b.absolute = true)
    (h : full_path b p = some q) : q.absolute = true := by
  obtain ⟨hq, _, _⟩ := full_path_dest b p q h
  rw [← hq, clean_absolute]
  unfold joinPath
  by_cases hp : p.absolute
  · rw [if_pos hp]; exact hp
  · rw [if_neg hp]; exact hb

theorem full_path_clean_self (b p q : RPath) (hb : b.absolute = true)
    (hnrb : Comp.rootDir ∉ b.comps) (hnrp : Comp.rootDir ∉ p.comps)
    (h : full_path b p = some q) : clean q = q := by
  obtain ⟨hq, _, _⟩ := full_path_dest b p q h
  have habs : q.absolute = true := full_path_absolute b p q hb h
  have hjoin : (joinPath b p).absolute = true := by
    have h2 : (clean (joinPath b p)).absolute = (joinPath b p).absolute :=
      clean_absolute _
    rw [hq] at h2
    rw [← h2]
    exact habs
  apply clean_fix_abs q habs
  rw [← hq]
  exact clean_onlyNormal (joinPath b p) hjoin (joinPath_noRoot b p hnrb hnrp)

/-- `full_path` is idempotent on its own output (the source relies on
this when `remove` calls `exists` on the already-resolved path). -/
theorem full_path_idem (b p q : RPath) (hb : b.absolute = true)
    (hnrb : Comp.rootDir ∉ b.comps) (hnrp : Comp.rootDir ∉ p.comps)
    (h : full_path b p = some q) : full_path b q = some q := by
  obtain ⟨hq, hpre, hname⟩ := full_path_dest b p q h
  have habs : q.absolute = true := full_path_absolute b p q hb h
  have hfix : clean (joinPath b q) = q := by
    rw [joinPath_abs_right b q habs]
    exact full_path_clean_self b p q hb hnrb hnrp h
  have := full_path_intro b q (by rw [hfix]; exact hpre) (by rw [hfix]; exact hname)
  rw [hfix] at this
  exact this

theorem metadata_path_ne (q : RPath) (h : (q.file_name).isSome = true) :
    metadata_path q ≠ q := by
  unfold RPath.file_name at h
  intro heq
  cases e : q.comps.getLast? with
  | none => rw [e] at h; simp at h
  | some c =>
    cases c with
    | normal s =>
      unfold metadata_path at heq
      rw [e] at heq
      have hcomps : q.comps.dropLast ++ [Comp.normal (s ++ METADATA_FILE_EXT)] = q.comps := by
        have := congrArg RPath.comps heq
        simpa using this
      have hlast : q.comps.getLast? = some (Comp.normal (s ++ METADATA_FILE_EXT)) := by
        rw [← hcomps]
        simp [List.getLast?_concat]
      rw [e] at hlast
      injection hlast with hlast
      have hs : s ++ METADATA_FILE_EXT = s := by
        injection hlast.symm
      have hlen := congrArg String.length hs
      rw [String.length_append] at hlen
      have : METADATA_FILE_EXT.length = 14 := by decide
      omega
    | rootDir => rw [e] at h; simp at h
    | curDir => rw [e] at h; simp at h
    | parentDir => rw [e] at h; simp at h

/-! ## `is_file` and chunk lemmas -/

theorem fsIsFile_eq (fs : Fs) (p : RPath) :
    fsIsFile fs p
      = match fsGet fs p with
        | some (FsNode.file _) => true
        | some (FsNode.metaFile _) => true
        | some (FsNode.symlink t) => fsIsFileAux fs 39 t
        | none => false := rfl

theorem fsIsFile_of_file (fs : Fs) (p : RPath) (c : List Nat)
    (h : fsGet fs p = some (FsNode.file c)) : fsIsFile fs p = true := by
  rw [fsIsFile_eq, h]

theorem fsIsFile_of_metaFile (fs : Fs) (p : RPath) (m : FileMetadata)
    (h : fsGet fs p = some (FsNode.metaFile m)) : fsIsFile fs p = true := by
  rw [fsIsFile_eq, h]

theorem fsIsFile_of_none (fs : Fs) (p : RPath)
    (h : fsGet fs p = none) : fsIsFile fs p = false := by
  rw [fsIsFile_eq, h]

theorem flatten_chunksGo (sp : Nat) (l : List Nat) :
    ∀ (room : Nat) (acc : List Nat),
      (chunksGo sp l room acc).flatten = acc.reverse ++ l := by
  induction l with
  | nil =>
    intro room acc
    by_cases h : acc.isEmpty
    · have : acc = [] := by cases acc <;> simp_all
      subst this
      simp [chunksGo]
    · simp [chunksGo, h]
  | cons b rest ih =>
    intro room acc
    cases room with
    | zero => simp [chunksGo, ih]
    | succ r => simp [chunksGo, ih]

theorem flatten_chunks8192 (l : List Nat) : (chunks8192 l).flatten = l := by
  have := flatten_chunksGo 8191 l 8192 []
  simpa [chunks8192] using this

/-! ## Upload-loop lemmas -/

theorem uploadLoop_chunks (path : RPath) (chunks : List (List Nat)) :
    ∀ (fs : Fs) (c : List Nat) (d : Sha256) (w : Nat),
      fsGet fs path = some (FsNode.file c) →
      uploadLoop fs path d w (chunks.map ReadEvent.chunk)
        = (fsWrite fs path (FsNode.file (c ++ chunks.flatten)),
           Except.ok (⟨d.buffer ++ chunks.flatten⟩, w + chunks.flatten.length)) := by
  induction chunks with
  | nil =>
    intro fs c d w h
    have hw : fsWrite fs path (FsNode.file c) = fs := by
      unfold fsWrite fsGet at *
      cases fs with
      | mk entries =>
        simp only [Fs.mk.injEq]
        exact alistInsert_self_eq entries path _ h
    simp only [List.map_nil, uploadLoop, List.flatten_nil, List.append_nil,
      List.length_nil, Nat.add_zero]
    rw [hw]
  | cons ch rest ih =>
    intro fs c d w h
    simp only [List.map_cons, uploadLoop]
    have happ : fsAppend fs path ch = fsWrite fs path (FsNode.file (c ++ ch)) := by
      unfold fsAppend
      rw [h]
    rw [happ]
    have hget : fsGet (fsWrite fs path (FsNode.file (c ++ ch))) path
        = some (FsNode.file (c ++ ch)) := by
      unfold fsGet fsWrite
      exact alistGet_insert_self _ _ _
    rw [ih (fsWrite fs path (FsNode.file (c ++ ch))) (c ++ ch) (d.update ch)
      (w + ch.length) hget]
    unfold fsWrite Sha256.update
    simp [alistInsert_insert, List.append_assoc]
    omega

/-! ## Filesystem state helper lemmas -/

theorem fsGet_fsWrite_self (fs : Fs) (p : RPath) (n : FsNode) :
    fsGet (fsWrite fs p n) p = some n := by
  unfold fsGet fsWrite
  exact alistGet_insert_self _ _ _

theorem fsGet_fsWrite_ne (fs : Fs) (p : RPath) (n : FsNode) (i : RPath) (h : i ≠ p) :
    fsGet (fsWrite fs p n) i = fsGet fs i := by
  unfold fsGet fsWrite
  exact alistGet_insert_ne _ _ _ _ h

theorem fsGet_fsRemove_self (fs : Fs) (p : RPath) :
    fsGet (fsRemove fs p) p = none := by
  unfold fsGet fsRemove
  exact alistGet_remove_self _ _

theorem fsGet_fsRemove_ne (fs : Fs) (p i : RPath) (h : i ≠ p) :
    fsGet (fsRemove fs p) i = fsGet fs i := by
  unfold fsGet fsRemove
  exact alistGet_remove_ne _ _ _ h

theorem fsWrite_fsWrite (fs : Fs) (p : RPath) (n n' : FsNode) :
    fsWrite (fsWrite fs p n) p n' = fsWrite fs p n' := by
  unfold fsWrite
  cases fs with
  | mk entries =>
    simp only [Fs.mk.injEq]
    exact alistInsert_insert entries p n n'

theorem fsWrite_self_eq (fs : Fs) (p : RPath) (n : FsNode)
    (h : fsGet fs p = some n) : fsWrite fs p n = fs := by
  unfold fsWrite fsGet at *
  cases fs with
  | mk entries =>
    simp only [Fs.mk.injEq]
    exact alistInsert_self_eq entries p n h

/-! ## Cache frame helper lemmas -/

/-- After `insert`, the inserted key maps to the fresh entry, whatever
was evicted. -/
theorem cache_insert_lookup {K V : Type} [DecidableEq K] (m : CacheMap K V)
    (t : Nat) (k : K) (v : V) :
    mapGet (m.insert t k v).inner k
      = some { inner := v, last_accessed := t, expires_at := t + m.default_ttl } := by
  unfold CacheMap.insert
  by_cases hcap : m.max_size ≤ m.inner.length
  · rw [if_pos hcap]
    unfold CacheMap.evict_lru
    cases hmin : (min_by_key m.inner).map (fun p => p.1) with
    | none =>
      dsimp only
      unfold mapGet mapInsert
      exact alistGet_insert_self _ _ _
    | some j =>
      dsimp only
      unfold mapGet mapInsert
      exact alistGet_insert_self _ _ _
  · rw [if_neg hcap]
    dsimp only
    unfold mapGet mapInsert
    exact alistGet_insert_self _ _ _

/-- A `get` on one key leaves every other key's entry untouched. -/
theorem cache_get_frame {K V : Type} [DecidableEq K] (m : CacheMap K V)
    (now : Nat) (i k : K) (h : i ≠ k) :
    mapGet ((m.get now i).2).inner k = mapGet m.inner k := by
  unfold CacheMap.get
  cases hget : mapGet m.inner i with
  | none => rfl
  | some e =>
    dsimp only
    by_cases hexp : e.expires_at ≤ now
    · rw [if_pos hexp]
      dsimp only
      unfold mapGet mapRemove
      exact alistGet_remove_ne _ _ _ (fun hh => h hh.symm)
    · rw [if_neg hexp]
      dsimp only
      unfold mapGet mapAdjust
      exact alistGet_adjust_ne _ _ _ _ (fun hh => h hh.symm)

/-- Whatever a `get` leaves behind under its own key came from the
pre-existing entry with the same value and the same `expires_at`. -/
theorem cache_get_self_cases {K V : Type} [DecidableEq K] (m : CacheMap K V)
    (now : Nat) (k : K) (e' : CacheEntry V)
    (h : mapGet ((m.get now k).2).inner k = some e') :
    ∃ e, mapGet m.inner k = some e
      ∧ e'.inner = e.inner ∧ e'.expires_at = e.expires_at := by
  unfold CacheMap.get at h
  cases hget : mapGet m.inner k with
  | none =>
    rw [hget] at h
    dsimp only at h
    rw [hget] at h
    exact Option.noConfusion h
  | some e =>
    rw [hget] at h
    dsimp only at h
    by_cases hexp : e.expires_at ≤ now
    · rw [if_pos hexp] at h
      dsimp only at h
      unfold mapGet mapRemove at h
      rw [alistGet_remove_self] at h
      exact Option.noConfusion h
    · rw [if_neg hexp] at h
      dsimp only at h
      unfold mapGet mapAdjust at h
      unfold mapGet at hget
      rw [alistGet_adjust_self m.inner k _ e hget] at h
      injection h with h
      rw [← h]
      exact ⟨e, rfl, rfl, rfl⟩

/-! ## Claim C1 -/

/-- C1, counterexample: the claim asserts that sandbox resolution
"rejects the root itself", but resolving the empty user path against the
root `/files` returns the root itself, through both
`FsFileStore::full_path` (whose `file_name` check passes because the
root's own final segment `files` is non-empty) and
`secure_virtual_path`; moreover `secure_virtual_path` can even return a
path with no final segment at all (root `/`, input `..`). -/
theorem c1_counterexample :
    full_path (parsePath "/files") (parsePath "") = some (parsePath "/files")
      ∧ secure_virtual_path (parsePath "/files") "" = some (parsePath "/files")
      ∧ secure_virtual_path (parsePath "/") ".." = some (parsePath "/")
      ∧ (parsePath "/").file_name = none := by decide

/-- C1, amended: `FsFileStore::full_path` returns a path only if the
lexically normalized join of root and path still has the root as a prefix
and has a non-empty final path segment, and `secure_virtual_path` returns
a path only if the normalized join has the root as a prefix (it performs
no final-segment check); both reject the traversal inputs
`"../../etc/passwd"`, `"a/../../b"` and the absolute path `/etc/passwd`
against the root `/files`, and neither ever returns a path outside the
root — but the root itself is returned for the empty input rather than
rejected (see the counterexample). -/
theorem c1_amended_sandbox :
    (∀ base p q : RPath, full_path base p = some q →
        pathStartsWith q base = true ∧ (q.file_name).isSome = true)
    ∧ (∀ (base : RPath) (s : String) (q : RPath),
        secure_virtual_path base s = some q → pathStartsWith q base = true)
    ∧ full_path (parsePath "/files") (parsePath "../../etc/passwd") = none
    ∧ full_path (parsePath "/files") (parsePath "a/../../b") = none
    ∧ full_path (parsePath "/files") (parsePath "/etc/passwd") = none
    ∧ secure_virtual_path (parsePath "/files") "../../etc/passwd" = none
    ∧ secure_virtual_path (parsePath "/files") "a/../../b" = none
    ∧ secure_virtual_path (parsePath "/files") "/etc/passwd" = none := by
  refine ⟨?_, ?_, by decide, by decide, by decide, by decide, by decide, by decide⟩
  · intro base p q h
    obtain ⟨_, h2, h3⟩ := full_path_dest base p q h
    exact ⟨h2, h3⟩
  · intro base s q h
    unfold secure_virtual_path at h
    by_cases hc : pathStartsWith (clean (joinPath base (parsePath s))) base
    · rw [if_pos hc] at h
      injection h with h
      exact h ▸ hc
    · rw [if_neg hc] at h
      exact absurd h (by simp)

/-- C1 witness: the amended theorem applied to a concrete resolution. -/
theorem c1_amended_sandbox_witness :
    full_path (parsePath "/files") (parsePath "docs/a.txt")
        = some ⟨true, [Comp.normal "files", Comp.normal "docs", Comp.normal "a.txt"]⟩
      ∧ (pathStartsWith
            ⟨true, [Comp.normal "files", Comp.normal "docs", Comp.normal "a.txt"]⟩
            (parsePath "/files") = true
          ∧ ((⟨true, [Comp.normal "files", Comp.normal "docs", Comp.normal "a.txt"]⟩
              : RPath).file_name).isSome = true) :=
  ⟨by decide, c1_amended_sandbox.1 (parsePath "/files") (parsePath "docs/a.txt") _ (by decide)⟩

/-! ## Claim C2 -/

/-- Capacity is preserved by `insert`. -/
theorem insert_max_size {K V : Type} [DecidableEq K] (m : CacheMap K V) (now : Nat)
    (k : K) (v : V) : (m.insert now k v).max_size = m.max_size := by
  unfold CacheMap.insert CacheMap.evict_lru
  by_cases h : m.max_size ≤ m.inner.length
  · rw [if_pos h]
    cases (min_by_key m.inner).map (fun p => p.1) <;> rfl
  · rw [if_neg h]

/-- One `insert` keeps the entry count within a positive capacity. -/
theorem insert_size_le {K V : Type} [DecidableEq K] (m : CacheMap K V)
    (h1 : 1 ≤ m.max_size) (h2 : m.inner.length ≤ m.max_size) (now : Nat) (k : K)
    (v : V) : (m.insert now k v).inner.length ≤ m.max_size := by
  unfold CacheMap.insert
  by_cases hcap : m.max_size ≤ m.inner.length
  · rw [if_pos hcap]
    have hlen : m.inner.length = m.max_size := Nat.le_antisymm h2 hcap
    have hne : m.inner ≠ [] := by
      intro hh
      rw [hh] at hlen
      simp at hlen
      omega
    obtain ⟨pr, hpr⟩ := min_by_key_isSome m.inner hne
    obtain ⟨e2, he2⟩ := alistGet_isSome_of_mem m.inner pr.1 pr.2
      (by rw [← Prod.mk.eta (p := pr)] at *; exact min_by_key_mem m.inner pr hpr)
    unfold CacheMap.evict_lru
    rw [hpr]
    simp only [Option.map_some']
    have hrm : (mapRemove m.inner pr.1).length < m.inner.length := by
      unfold mapRemove
      exact length_alistRemove_lt m.inner pr.1 e2 he2
    have hins := length_alistInsert_le (mapRemove m.inner pr.1) k
      (⟨v, now, now + m.default_ttl⟩ : CacheEntry V)
    simp only [mapInsert] at *
    omega
  · rw [if_neg hcap]
    have hins := length_alistInsert_le m.inner k
      (⟨v, now, now + m.default_ttl⟩ : CacheEntry V)
    simp only [mapInsert] at *
    omega

/-- C2, counterexample: a cache constructed with `with_max_size(0)` (the
capacity is caller-supplied) holds one entry after one `insert`, because
`evict_lru` on the empty map is a no-op and the insertion happens
unconditionally afterwards. -/
theorem c2_counterexample :
    (((CacheMap.new Nat Nat).with_max_size 0).insert 0 1 10).inner.length = 1
      ∧ ¬ ((((CacheMap.new Nat Nat).with_max_size 0).insert 0 1 10).inner.length
            ≤ (((CacheMap.new Nat Nat).with_max_size 0).insert 0 1 10).max_size) := by
  decide

/-- C2, amended: for every cache instance with `max_size ≥ 1` whose entry
count is within capacity, the entry count stays at most `max_size` after
every further `insert` in any sequence of `insert` calls. -/
theorem c2_amended_size_bound {K V : Type} [DecidableEq K] (m : CacheMap K V)
    (h1 : 1 ≤ m.max_size) (h2 : m.inner.length ≤ m.max_size) :
    ∀ ops : List (Nat × K × V),
      (insertSeq m ops).inner.length ≤ m.max_size := by
  intro ops
  induction ops generalizing m with
  | nil => exact h2
  | cons op rest ih =>
    have hmax := insert_max_size m op.1 op.2.1 op.2.2
    have hstep := insert_size_le m h1 h2 op.1 op.2.1 op.2.2
    have hih := ih (m.insert op.1 op.2.1 op.2.2)
      (by rw [hmax]; exact h1) (by rw [hmax]; exact hstep)
    rw [hmax] at hih
    exact hih

/-- C2 witness: the amended bound on a concrete cache and insert burst
that overflows a capacity of 2. -/
theorem c2_amended_size_bound_witness :
    1 ≤ ((CacheMap.new Nat Nat).with_max_size 2).max_size
      ∧ ((CacheMap.new Nat Nat).with_max_size 2).inner.length
          ≤ ((CacheMap.new Nat Nat).with_max_size 2).max_size
      ∧ (insertSeq ((CacheMap.new Nat Nat).with_max_size 2)
            [(0, 1, 10), (1, 2, 20), (2, 3, 30), (3, 4, 40)]).inner.length
          ≤ ((CacheMap.new Nat Nat).with_max_size 2).max_size :=
  ⟨by decide, by decide,
    c2_amended_size_bound ((CacheMap.new Nat Nat).with_max_size 2) (by decide) (by decide)
      [(0, 1, 10), (1, 2, 20), (2, 3, 30), (3, 4, 40)]⟩

/-! ## Claim C5 -/

/-- C5: when the entry for a key exists and the clock is at or past its
`expires_at`, `get` removes the entry and returns absent; when it exists
and is not yet expired, `get` refreshes `last_accessed` to the current
time and returns the value; and `get` never returns a value from a
logically-expired entry (the expiration check precedes the recency
update: the removed entry's `last_accessed` is never touched). -/
theorem c5_get_expiration {K V : Type} [DecidableEq K] (m : CacheMap K V)
    (now : Nat) (k : K) (e : CacheEntry V) (h : mapGet m.inner k = some e) :
    (e.expires_at ≤ now →
        m.get now k = (none, { m with inner := mapRemove m.inner k })
          ∧ mapGet (mapRemove m.inner k) k = none)
    ∧ (now < e.expires_at →
        m.get now k
          = (some e.inner,
             { m with inner :=
                mapAdjust m.inner k (fun en => { en with last_accessed := now }) })
          ∧ mapGet (mapAdjust m.inner k (fun en => { en with last_accessed := now })) k
              = some { e with last_accessed := now })
    ∧ (∀ v, (m.get now k).1 = some v → now < e.expires_at ∧ v = e.inner) := by
  refine ⟨?_, ?_, ?_⟩
  · intro hexp
    unfold CacheMap.get
    rw [h]
    dsimp only
    rw [if_pos hexp]
    exact ⟨rfl, alistGet_remove_self m.inner k⟩
  · intro hexp
    unfold CacheMap.get
    rw [h]
    dsimp only
    rw [if_neg (by omega)]
    exact ⟨rfl, alistGet_adjust_self m.inner k _ e h⟩
  · intro v hv
    unfold CacheMap.get at hv
    rw [h] at hv
    dsimp only at hv
    by_cases hexp : e.expires_at ≤ now
    · rw [if_pos hexp] at hv
      simp at hv
    · rw [if_neg hexp] at hv
      simp at hv
      exact ⟨by omega, hv.symm⟩

/-- C5 witness: the expiry and refresh behavior on a concrete cache. -/
theorem c5_get_expiration_witness :
    mapGet ((CacheMap.new Nat Nat).insert 0 1 10).inner 1 = some ⟨10, 0, 3600⟩
      ∧ ((3600 : Nat) ≤ 3600 →
          ((CacheMap.new Nat Nat).insert 0 1 10).get 3600 1
              = (none,
                 { (CacheMap.new Nat Nat).insert 0 1 10 with
                    inner := mapRemove ((CacheMap.new Nat Nat).insert 0 1 10).inner 1 })
            ∧ mapGet (mapRemove ((CacheMap.new Nat Nat).insert 0 1 10).inner 1) 1
                = none) :=
  ⟨by decide, ((c5_get_expiration ((CacheMap.new Nat Nat).insert 0 1 10) 3600 1
      ⟨10, 0, 3600⟩ (by decide)).1)⟩

/-! ## Claim C6 -/

/-- C6, counterexample: a cache with `max_size = 0` is at capacity while
holding no entries, so inserting one more entry cannot and does not evict
"exactly one existing entry": nothing is evicted and the new entry goes
in regardless. -/
theorem c6_counterexample :
    ((CacheMap.new Nat Nat).with_max_size 0).inner.length
        = ((CacheMap.new Nat Nat).with_max_size 0).max_size
      ∧ (∀ j : Nat, mapGet ((CacheMap.new Nat Nat).with_max_size 0).inner j = none)
      ∧ (((CacheMap.new Nat Nat).with_max_size 0).insert 0 7 42).inner
          = [(7, ⟨42, 0, 3600⟩)] := by
  exact ⟨by decide, fun j => rfl, by decide⟩

/-- C6, amended: for every cache instance with `max_size ≥ 1` that is at
capacity (with distinct keys, as in a `HashMap`), inserting an entry
under a fresh key first evicts exactly one existing entry — one whose
`last_accessed` is minimal among the current entries (ties broken by
iteration order, deterministically within a run) — and then inserts the
new entry: the evicted key is gone, the new key is present, every other
entry is untouched, and the entry count is again `max_size`. -/
theorem c6_amended_lru_eviction {K V : Type} [DecidableEq K] (m : CacheMap K V)
    (now : Nat) (k : K) (v : V)
    (hcap : m.inner.length = m.max_size) (hpos : 1 ≤ m.max_size)
    (hfresh : mapGet m.inner k = none)
    (hnd : (m.inner.map Prod.fst).Nodup) :
    ∃ j ej,
      mapGet m.inner j = some ej
      ∧ (∀ p ∈ m.inner, ej.last_accessed ≤ p.2.last_accessed)
      ∧ j ≠ k
      ∧ mapGet (m.insert now k v).inner j = none
      ∧ mapGet (m.insert now k v).inner k
          = some { inner := v, last_accessed := now, expires_at := now + m.default_ttl }
      ∧ (∀ i, i ≠ j → i ≠ k →
          mapGet (m.insert now k v).inner i = mapGet m.inner i)
      ∧ (m.insert now k v).inner.length = m.max_size := by
  have hne : m.inner ≠ [] := by
    intro hh
    rw [hh] at hcap
    simp at hcap
    omega
  obtain ⟨pr, hpr⟩ := min_by_key_isSome m.inner hne
  have hmem : pr ∈ m.inner := min_by_key_mem m.inner pr hpr
  have hget : mapGet m.inner pr.1 = some pr.2 := by
    unfold mapGet
    exact alistGet_of_mem_nodup m.inner pr.1 pr.2 (by rw [Prod.mk.eta]; exact hmem) hnd
  have hjk : pr.1 ≠ k := by
    intro hh
    rw [hh, hfresh] at hget
    exact Option.noConfusion hget
  have hins_eq : (m.insert now k v).inner
      = mapInsert (mapRemove m.inner pr.1) k
          { inner := v, last_accessed := now, expires_at := now + m.default_ttl } := by
    unfold CacheMap.insert
    rw [if_pos (by omega)]
    unfold CacheMap.evict_lru
    rw [hpr]
    simp only [Option.map_some']
  refine ⟨pr.1, pr.2, hget, min_by_key_min m.inner pr hpr, hjk, ?_, ?_, ?_, ?_⟩
  · rw [hins_eq]
    unfold mapGet mapInsert mapRemove
    rw [alistGet_insert_ne _ _ _ _ hjk]
    exact alistGet_remove_self m.inner pr.1
  · rw [hins_eq]
    unfold mapGet mapInsert
    exact alistGet_insert_self _ _ _
  · intro i hij hik
    rw [hins_eq]
    unfold mapGet mapInsert mapRemove
    rw [alistGet_insert_ne _ _ _ _ hik]
    exact alistGet_remove_ne m.inner pr.1 i hij
  · rw [hins_eq]
    have hrm := length_alistRemove_nodup m.inner pr.1 pr.2
      (by rw [Prod.mk.eta]; exact hmem) hnd
    have hnotin : alistGet (alistRemove m.inner pr.1) k = none := by
      rw [alistGet_remove_ne _ _ _ (fun hh => hjk hh.symm)]
      exact hfresh
    unfold mapInsert mapRemove at *
    rw [length_alistInsert_new _ _ _ hnotin]
    omega

/-- C6 witness: LRU eviction at capacity on a concrete two-entry cache
where key 1 is least recently used. -/
theorem c6_amended_lru_eviction_witness :
    (⟨[(1, ⟨10, 0, 100⟩), (2, ⟨20, 5, 100⟩)], 60, 2⟩ : CacheMap Nat Nat).inner.length
        = (⟨[(1, ⟨10, 0, 100⟩), (2, ⟨20, 5, 100⟩)], 60, 2⟩ : CacheMap Nat Nat).max_size
      ∧ (∃ j ej,
          mapGet (⟨[(1, ⟨10, 0, 100⟩), (2, ⟨20, 5, 100⟩)], 60, 2⟩
              : CacheMap Nat Nat).inner j = some ej
          ∧ (∀ p ∈ (⟨[(1, ⟨10, 0, 100⟩), (2, ⟨20, 5, 100⟩)], 60, 2⟩
                : CacheMap Nat Nat).inner, ej.last_accessed ≤ p.2.last_accessed)
          ∧ j ≠ 3
          ∧ mapGet ((⟨[(1, ⟨10, 0, 100⟩), (2, ⟨20, 5, 100⟩)], 60, 2⟩
              : CacheMap Nat Nat).insert 7 3 30).inner j = none
          ∧ mapGet ((⟨[(1, ⟨10, 0, 100⟩), (2, ⟨20, 5, 100⟩)], 60, 2⟩
              : CacheMap Nat Nat).insert 7 3 30).inner 3
              = some { inner := 30, last_accessed := 7, expires_at := 7 + 60 }
          ∧ (∀ i, i ≠ j → i ≠ 3 →
              mapGet ((⟨[(1, ⟨10, 0, 100⟩), (2, ⟨20, 5, 100⟩)], 60, 2⟩
                  : CacheMap Nat Nat).insert 7 3 30).inner i
                = mapGet (⟨[(1, ⟨10, 0, 100⟩), (2, ⟨20, 5, 100⟩)], 60, 2⟩
                    : CacheMap Nat Nat).inner i)
          ∧ ((⟨[(1, ⟨10, 0, 100⟩), (2, ⟨20, 5, 100⟩)], 60, 2⟩
              : CacheMap Nat Nat).insert 7 3 30).inner.length
              = (⟨[(1, ⟨10, 0, 100⟩), (2, ⟨20, 5, 100⟩)], 60, 2⟩
                  : CacheMap Nat Nat).max_size) :=
  ⟨by decide,
    c6_amended_lru_eviction (⟨[(1, ⟨10, 0, 100⟩), (2, ⟨20, 5, 100⟩)], 60, 2⟩
        : CacheMap Nat Nat) 7 3 30 (by decide) (by decide) (by decide) (by decide)⟩

/-! ## Claim C8 -/

/-- C8: the spec requires `exists` to treat a symbolic link presented as
the final path component as non-existent, but the source's
`FsFileStore::exists` uses `Path::is_file`, which follows symlinks: for
`/files/link -> /files/real` (a regular file), `exists("link")` answers
`true`.  (The serve route separately rejects symlinks with
`Path::is_symlink`; the store's own check does not.) -/
theorem c8_exists_follows_symlink :
    FsFileStore.exists_file ⟨parsePath "/files"⟩
        ⟨[(parsePath "/files/link", FsNode.symlink (parsePath "/files/real")),
          (parsePath "/files/real", FsNode.file [104, 105])]⟩
        (parsePath "link") = true := by decide

/-! ## Claim C9 -/

/-- C9: serving a stored file from the cache path, a request whose
`If-None-Match` equals the entry's content hash (the hex SHA-256 of the
bytes) receives 304 with an empty body, and a request with a different or
absent validator receives 200 with the full body and an `ETag` equal to
the hash. -/
theorem c9_conditional_get (bs : List Nat) (v : Option String) :
    response_from_file (some (CachedFileEntry.new bs).hash) (CachedFileEntry.new bs)
        = { status := 304, etag := none, body := [] }
      ∧ (CachedFileEntry.new bs).hash = hexOfBytes (sha256 bs)
      ∧ (v ≠ some (CachedFileEntry.new bs).hash →
          response_from_file v (CachedFileEntry.new bs)
            = { status := 200, etag := some (CachedFileEntry.new bs).hash, body := bs }) := by
  refine ⟨?_, rfl, ?_⟩
  · unfold response_from_file
    simp
  · intro hv
    unfold response_from_file
    cases v with
    | none => simp [CachedFileEntry.new]
    | some t =>
      have ht : ¬ t = (CachedFileEntry.new bs).hash := by
        intro hh
        exact hv (by rw [hh])
      simp only [CachedFileEntry.new] at ht
      simp [ht, CachedFileEntry.new]

/-- C9 witness: conditional GET on concrete bytes with an absent
validator. -/
theorem c9_conditional_get_witness :
    (none : Option String) ≠ some (CachedFileEntry.new [104, 105]).hash
      ∧ response_from_file none (CachedFileEntry.new [104, 105])
          = { status := 200, etag := some (CachedFileEntry.new [104, 105]).hash,
              body := [104, 105] } :=
  ⟨fun h => Option.noConfusion h,
    (c9_conditional_get [104, 105] none).2.2 (fun h => Option.noConfusion h)⟩

/-! ## Claim C3 -/

/-- The full upload of a byte sequence along an error-free reader:
destination file written, digest over exactly the bytes, sidecar with hex
digest and byte count. -/
theorem upload_ok (store : FsFileStore) (fs : Fs) (p q : RPath) (bs : List Nat)
    (hq : store.full_path p = some q) (hv : store.is_valid_path q = true) :
    store.upload fs p (eventsOfBytes bs)
      = (fsWrite (fsWrite fs q (FsNode.file bs)) (metadata_path q)
           (FsNode.metaFile { hash := hexOfBytes (sha256 bs), size_bytes := bs.length }),
         Except.ok { hash := hexOfBytes (sha256 bs), size_bytes := bs.length }) := by
  unfold FsFileStore.upload
  rw [hq]
  dsimp only
  rw [hv]
  simp only [Bool.not_true, Bool.false_eq_true, if_false]
  rw [show eventsOfBytes bs = (chunks8192 bs).map ReadEvent.chunk from rfl]
  rw [uploadLoop_chunks q (chunks8192 bs) (fsWrite fs q (FsNode.file [])) [] Sha256.new 0
    (fsGet_fsWrite_self fs q (FsNode.file []))]
  dsimp only
  rw [flatten_chunks8192, fsWrite_fsWrite]
  simp only [List.nil_append, Nat.zero_add]
  rfl

/-- C3: uploading a byte sequence to a valid sandboxed path and
immediately reading the file back yields exactly the same bytes, and the
metadata sidecar persisted next to it holds the hex-encoded SHA-256
digest of those bytes together with their count — which is also what
`FsFile::new_existing` reads back as the stored file's metadata. -/
theorem c3_upload_roundtrip (store : FsFileStore) (fs : Fs) (p q : RPath)
    (bs : List Nat) (hq : store.full_path p = some q)
    (hv : store.is_valid_path q = true) :
    ∃ fs2,
      store.upload fs p (eventsOfBytes bs)
        = (fs2, Except.ok { hash := hexOfBytes (sha256 bs), size_bytes := bs.length })
      ∧ fsGet fs2 q = some (FsNode.file bs)
      ∧ fsGet fs2 (metadata_path q)
          = some (FsNode.metaFile
              { hash := hexOfBytes (sha256 bs), size_bytes := bs.length })
      ∧ (FsFile.new_existing fs2 q).metadata
          = { hash := hexOfBytes (sha256 bs), size_bytes := bs.length }
      ∧ ((FsFile.new_existing fs2 q).bytes_iter fs2).flatten = bs := by
  obtain ⟨_, _, hname⟩ := full_path_dest store.base_path p q hq
  have hne : metadata_path q ≠ q := metadata_path_ne q hname
  have hgq : fsGet (fsWrite (fsWrite fs q (FsNode.file bs)) (metadata_path q)
      (FsNode.metaFile { hash := hexOfBytes (sha256 bs), size_bytes := bs.length })) q
      = some (FsNode.file bs) := by
    rw [fsGet_fsWrite_ne _ _ _ _ (fun hh => hne hh.symm)]
    exact fsGet_fsWrite_self _ _ _
  refine ⟨_, upload_ok store fs p q bs hq hv, hgq, fsGet_fsWrite_self _ _ _, ?_, ?_⟩
  · unfold FsFile.new_existing read_metadata
    rw [fsGet_fsWrite_self]
    rfl
  · unfold FsFile.bytes_iter FsFile.new_existing
    dsimp only
    rw [hgq]
    exact flatten_chunks8192 bs

/-- C3 witness: round trip of the bytes `hi` through `/files/a.txt`. -/
theorem c3_upload_roundtrip_witness :
    (FsFileStore.full_path ⟨parsePath "/files"⟩ (parsePath "a.txt")
        = some (parsePath "/files/a.txt")
      ∧ FsFileStore.is_valid_path ⟨parsePath "/files"⟩ (parsePath "/files/a.txt") = true)
      ∧ ∃ fs2,
          FsFileStore.upload ⟨parsePath "/files"⟩ ⟨[]⟩ (parsePath "a.txt")
              (eventsOfBytes [104, 105])
            = (fs2, Except.ok { hash := hexOfBytes (sha256 [104, 105]), size_bytes := 2 })
          ∧ fsGet fs2 (parsePath "/files/a.txt") = some (FsNode.file [104, 105])
          ∧ fsGet fs2 (metadata_path (parsePath "/files/a.txt"))
              = some (FsNode.metaFile
                  { hash := hexOfBytes (sha256 [104, 105]), size_bytes := 2 })
          ∧ (FsFile.new_existing fs2 (parsePath "/files/a.txt")).metadata
              = { hash := hexOfBytes (sha256 [104, 105]), size_bytes := 2 }
          ∧ ((FsFile.new_existing fs2 (parsePath "/files/a.txt")).bytes_iter fs2).flatten
              = [104, 105] :=
  ⟨⟨by decide, by decide⟩,
    c3_upload_roundtrip ⟨parsePath "/files"⟩ ⟨[]⟩ (parsePath "a.txt")
      (parsePath "/files/a.txt") [104, 105] (by decide) (by decide)⟩

/-! ## Claim C7 -/

/-- Running the copy loop through a prefix of successful chunks advances
the destination file, the digest and the counter, and leaves the
remaining events to process. -/
theorem uploadLoop_chunks_append (path : RPath) (chunks : List (List Nat)) :
    ∀ (fs : Fs) (c : List Nat) (d : Sha256) (w : Nat) (evs : List ReadEvent),
      fsGet fs path = some (FsNode.file c) →
      uploadLoop fs path d w (chunks.map ReadEvent.chunk ++ evs)
        = uploadLoop (fsWrite fs path (FsNode.file (c ++ chunks.flatten))) path
            ⟨d.buffer ++ chunks.flatten⟩ (w + chunks.flatten.length) evs := by
  induction chunks with
  | nil =>
    intro fs c d w evs h
    simp only [List.map_nil, List.nil_append, List.flatten_nil, List.append_nil,
      List.length_nil, Nat.add_zero]
    rw [fsWrite_self_eq fs path _ h]
  | cons ch rest ih =>
    intro fs c d w evs h
    simp only [List.map_cons, List.cons_append, uploadLoop, List.append_eq]
    have happ : fsAppend fs path ch = fsWrite fs path (FsNode.file (c ++ ch)) := by
      unfold fsAppend
      rw [h]
    rw [happ, ih (fsWrite fs path (FsNode.file (c ++ ch))) (c ++ ch) (d.update ch)
      (w + ch.length) evs (fsGet_fsWrite_self _ _ _)]
    rw [fsWrite_fsWrite]
    have e1 : (c ++ ch) ++ rest.flatten = c ++ (ch :: rest).flatten := by
      simp [List.append_assoc]
    have e2 : (d.update ch).buffer ++ rest.flatten = d.buffer ++ (ch :: rest).flatten := by
      unfold Sha256.update
      simp [List.append_assoc]
    have e3 : (w + ch.length) + rest.flatten.length = w + ((ch :: rest).flatten).length := by
      simp only [List.flatten_cons, List.length_append]
      omega
    rw [e1, e2, e3]

/-- C7: when a read or write failure interrupts an upload after any
number of successfully transferred chunks, the partially written
destination file is deleted before the call returns, the returned error
is the original read/write error (the cleanup's own outcome is ignored,
never compounded), and the metadata sidecar is left exactly as it was —
no partial file and no fresh sidecar survive the failed upload. -/
theorem c7_failed_upload_cleanup (store : FsFileStore) (fs : Fs) (p q : RPath)
    (pre : List (List Nat)) (bad : ReadEvent) (rest : List ReadEvent)
    (hq : store.full_path p = some q) (hv : store.is_valid_path q = true)
    (hbad : bad = ReadEvent.readErr ∨ ∃ b, bad = ReadEvent.writeErr b) :
    ∃ fs2 e,
      store.upload fs p (pre.map ReadEvent.chunk ++ bad :: rest)
          = (fs2, Except.error e)
        ∧ fsGet fs2 q = none
        ∧ fsGet fs2 (metadata_path q) = fsGet fs (metadata_path q)
        ∧ (bad = ReadEvent.readErr → e = StoreError.readFailed)
        ∧ (∀ b, bad = ReadEvent.writeErr b → e = StoreError.writeFailed) := by
  obtain ⟨_, _, hname⟩ := full_path_dest store.base_path p q hq
  have hne : metadata_path q ≠ q := metadata_path_ne q hname
  have hcommon : ∀ err : StoreError,
      fsGet (fsRemove (fsWrite fs q (FsNode.file pre.flatten)) q) q = none
        ∧ fsGet (fsRemove (fsWrite fs q (FsNode.file pre.flatten)) q) (metadata_path q)
            = fsGet fs (metadata_path q) := by
    intro _
    refine ⟨fsGet_fsRemove_self _ _, ?_⟩
    rw [fsGet_fsRemove_ne _ _ _ hne, fsGet_fsWrite_ne _ _ _ _ hne]
  have hloop : uploadLoop (fsWrite fs q (FsNode.file [])) q Sha256.new 0
      (pre.map ReadEvent.chunk ++ bad :: rest)
      = uploadLoop (fsWrite fs q (FsNode.file pre.flatten)) q ⟨pre.flatten⟩
          pre.flatten.length (bad :: rest) := by
    rw [uploadLoop_chunks_append q pre (fsWrite fs q (FsNode.file [])) [] Sha256.new 0
      (bad :: rest) (fsGet_fsWrite_self _ _ _)]
    rw [fsWrite_fsWrite]
    simp [Sha256.new]
  rcases hbad with hre | ⟨b0, hwe⟩
  · subst hre
    refine ⟨fsRemove (fsWrite fs q (FsNode.file pre.flatten)) q, StoreError.readFailed,
      ?_, (hcommon StoreError.readFailed).1, (hcommon StoreError.readFailed).2,
      fun _ => rfl, fun b hb => ReadEvent.noConfusion hb⟩
    unfold FsFileStore.upload
    rw [hq]
    dsimp only
    rw [hv]
    simp only [Bool.not_true, Bool.false_eq_true, if_false]
    rw [hloop]
    rfl
  · subst hwe
    refine ⟨fsRemove (fsWrite fs q (FsNode.file pre.flatten)) q, StoreError.writeFailed,
      ?_, (hcommon StoreError.writeFailed).1, (hcommon StoreError.writeFailed).2,
      fun hb => ReadEvent.noConfusion hb, fun b hb => rfl⟩
    unfold FsFileStore.upload
    rw [hq]
    dsimp only
    rw [hv]
    simp only [Bool.not_true, Bool.false_eq_true, if_false]
    rw [hloop]
    rfl

/-- C7 witness: one good chunk, then a read failure; the partial file at
`/files/a.txt` is gone and the error is the read error. -/
theorem c7_failed_upload_cleanup_witness :
    (FsFileStore.full_path ⟨parsePath "/files"⟩ (parsePath "a.txt")
        = some (parsePath "/files/a.txt")
      ∧ FsFileStore.is_valid_path ⟨parsePath "/files"⟩ (parsePath "/files/a.txt") = true
      ∧ (ReadEvent.readErr = ReadEvent.readErr
          ∨ ∃ b, ReadEvent.readErr = ReadEvent.writeErr b))
      ∧ ∃ fs2 e,
          FsFileStore.upload ⟨parsePath "/files"⟩ ⟨[]⟩ (parsePath "a.txt")
              ([[1, 2, 3]].map ReadEvent.chunk ++ ReadEvent.readErr :: [])
            = (fs2, Except.error e)
          ∧ fsGet fs2 (parsePath "/files/a.txt") = none
          ∧ fsGet fs2 (metadata_path (parsePath "/files/a.txt"))
              = fsGet ⟨[]⟩ (metadata_path (parsePath "/files/a.txt"))
          ∧ (ReadEvent.readErr = ReadEvent.readErr → e = StoreError.readFailed)
          ∧ (∀ b, ReadEvent.readErr = ReadEvent.writeErr b
              → e = StoreError.writeFailed) :=
  ⟨⟨by decide, by decide, Or.inl rfl⟩,
    c7_failed_upload_cleanup ⟨parsePath "/files"⟩ ⟨[]⟩ (parsePath "a.txt")
      (parsePath "/files/a.txt") [[1, 2, 3]] ReadEvent.readErr [] (by decide) (by decide)
      (Or.inl rfl)⟩

/-! ## Claim C4 -/

/-- On an already-resolved path, `exists` is just the (symlink-following)
file check. -/
theorem exists_file_eq (store : FsFileStore) (fs : Fs) (q : RPath)
    (hq2 : store.full_path q = some q) :
    store.exists_file fs q = fsIsFile fs q := by
  unfold FsFileStore.exists_file
  rw [hq2]

/-- C4, counterexample: the claim fails under a relative storage root
such as the shipped default `base_dir = "files"`.  `remove` resolves the
user path `a.txt` to `files/a.txt` (valid), then calls `exists` on that
already-resolved path, which resolves it a second time to
`files/files/a.txt`; that path is still prefix-valid but is not the
file's path, so `exists` reports `false` and `remove` returns success
without deleting the existing file — the file still exists afterwards. -/
theorem c4_counterexample :
    FsFileStore.full_path ⟨parsePath "files"⟩ (parsePath "a.txt")
        = some (parsePath "files/a.txt")
      ∧ FsFileStore.is_valid_path ⟨parsePath "files"⟩ (parsePath "files/a.txt") = true
      ∧ fsGet ⟨[(parsePath "files/a.txt", FsNode.file [1])]⟩ (parsePath "files/a.txt")
          = some (FsNode.file [1])
      ∧ FsFileStore.remove ⟨parsePath "files"⟩
            ⟨[(parsePath "files/a.txt", FsNode.file [1])]⟩ (parsePath "a.txt")
          = (⟨[(parsePath "files/a.txt", FsNode.file [1])]⟩, Except.ok ())
      ∧ fsGet (FsFileStore.remove ⟨parsePath "files"⟩
            ⟨[(parsePath "files/a.txt", FsNode.file [1])]⟩ (parsePath "a.txt")).1
            (parsePath "files/a.txt")
          = some (FsNode.file [1]) :=
  ⟨by decide, by decide, by decide, by rfl, by decide⟩

/-- C4, amended: for a valid sandboxed path over an *absolute* storage
root (the re-resolution that `remove`'s internal `exists` call performs
is the identity there, unlike under a relative root — see the
counterexample), `remove` succeeds as a no-op when the file does not
exist; when the file exists, `remove` succeeds, deletes the file — and
its metadata sidecar when one is present — so the file no longer exists
afterwards; and a second `remove` right after is a successful no-op,
making deleting twice equivalent to deleting once. -/
theorem c4_remove_idempotent (store : FsFileStore) (fs : Fs) (p q : RPath)
    (hb : store.base_path.absolute = true)
    (hnrb : Comp.rootDir ∉ store.base_path.comps)
    (hnrp : Comp.rootDir ∉ p.comps)
    (hq : store.full_path p = some q) (hv : store.is_valid_path q = true) :
    (fsIsFile fs q = false → store.remove fs p = (fs, Except.ok ()))
      ∧ (∀ c, fsGet fs q = some (FsNode.file c) →
          ∃ fs2, store.remove fs p = (fs2, Except.ok ())
            ∧ fsGet fs2 q = none
            ∧ store.exists_file fs2 p = false
            ∧ (fsIsFile (fsRemove fs q) (metadata_path q) = true →
                fsGet fs2 (metadata_path q) = none)
            ∧ store.remove fs2 p = (fs2, Except.ok ())) := by
  have hq2 : store.full_path q = some q :=
    full_path_idem store.base_path p q hb hnrb hnrp hq
  obtain ⟨_, _, hname⟩ := full_path_dest store.base_path p q hq
  have hne : metadata_path q ≠ q := metadata_path_ne q hname
  have hnoop : ∀ fs3 : Fs, fsIsFile fs3 q = false →
      store.remove fs3 p = (fs3, Except.ok ()) := by
    intro fs3 hnofile
    unfold FsFileStore.remove
    rw [hq]
    dsimp only
    rw [hv]
    simp only [Bool.not_true, Bool.false_eq_true, if_false]
    rw [exists_file_eq store fs3 q hq2, hnofile]
    simp
  refine ⟨hnoop fs, ?_⟩
  intro c hc
  have hfile : fsIsFile fs q = true := fsIsFile_of_file fs q c hc
  have hbody : store.remove fs p
      = (if fsIsFile (fsRemove fs q) (metadata_path q)
          then (fsRemove (fsRemove fs q) (metadata_path q), Except.ok ())
          else (fsRemove fs q, Except.ok ())) := by
    unfold FsFileStore.remove
    rw [hq]
    dsimp only
    rw [hv]
    simp only [Bool.not_true, Bool.false_eq_true, if_false]
    rw [exists_file_eq store fs q hq2, hfile]
    simp
  by_cases hmp : fsIsFile (fsRemove fs q) (metadata_path q)
  · rw [if_pos hmp] at hbody
    have hgone : fsGet (fsRemove (fsRemove fs q) (metadata_path q)) q = none := by
      rw [fsGet_fsRemove_ne _ _ _ (fun hh => hne hh.symm)]
      exact fsGet_fsRemove_self _ _
    refine ⟨fsRemove (fsRemove fs q) (metadata_path q), hbody, hgone, ?_, ?_, ?_⟩
    · unfold FsFileStore.exists_file
      rw [hq]
      exact fsIsFile_of_none _ _ hgone
    · intro _
      exact fsGet_fsRemove_self _ _
    · exact hnoop _ (fsIsFile_of_none _ _ hgone)
  · rw [if_neg hmp] at hbody
    have hgone : fsGet (fsRemove fs q) q = none := fsGet_fsRemove_self _ _
    refine ⟨fsRemove fs q, hbody, hgone, ?_, ?_, ?_⟩
    · unfold FsFileStore.exists_file
      rw [hq]
      exact fsIsFile_of_none _ _ hgone
    · intro hh
      exact absurd hh hmp
    · exact hnoop _ (fsIsFile_of_none _ _ hgone)

/-- C4 witness: removing `/files/a.txt` (present, with sidecar) deletes
both and is idempotent; the hypotheses on the concrete store hold by
computation. -/
theorem c4_remove_idempotent_witness :
    ((⟨parsePath "/files"⟩ : FsFileStore).base_path.absolute = true
      ∧ Comp.rootDir ∉ (⟨parsePath "/files"⟩ : FsFileStore).base_path.comps
      ∧ Comp.rootDir ∉ (parsePath "a.txt").comps
      ∧ FsFileStore.full_path ⟨parsePath "/files"⟩ (parsePath "a.txt")
          = some (parsePath "/files/a.txt")
      ∧ FsFileStore.is_valid_path ⟨parsePath "/files"⟩ (parsePath "/files/a.txt") = true)
      ∧ (∀ c, fsGet ⟨[(parsePath "/files/a.txt", FsNode.file [1, 2]),
              (metadata_path (parsePath "/files/a.txt"),
               FsNode.metaFile { hash := "", size_bytes := 2 })]⟩
            (parsePath "/files/a.txt") = some (FsNode.file c) →
          ∃ fs2,
            FsFileStore.remove ⟨parsePath "/files"⟩
                ⟨[(parsePath "/files/a.txt", FsNode.file [1, 2]),
                  (metadata_path (parsePath "/files/a.txt"),
                   FsNode.metaFile { hash := "", size_bytes := 2 })]⟩
                (parsePath "a.txt")
              = (fs2, Except.ok ())
            ∧ fsGet fs2 (parsePath "/files/a.txt") = none
            ∧ FsFileStore.exists_file ⟨parsePath "/files"⟩ fs2 (parsePath "a.txt") = false
            ∧ (fsIsFile
                  (fsRemove ⟨[(parsePath "/files/a.txt", FsNode.file [1, 2]),
                    (metadata_path (parsePath "/files/a.txt"),
                     FsNode.metaFile { hash := "", size_bytes := 2 })]⟩
                    (parsePath "/files/a.txt"))
                  (metadata_path (parsePath "/files/a.txt")) = true →
                fsGet fs2 (metadata_path (parsePath "/files/a.txt")) = none)
            ∧ FsFileStore.remove ⟨parsePath "/files"⟩ fs2 (parsePath "a.txt")
                = (fs2, Except.ok ())) :=
  ⟨⟨by decide, by decide, by decide, by decide, by decide⟩,
    (c4_remove_idempotent ⟨parsePath "/files"⟩
      ⟨[(parsePath "/files/a.txt", FsNode.file [1, 2]),
        (metadata_path (parsePath "/files/a.txt"),
         FsNode.metaFile { hash := "", size_bytes := 2 })]⟩
      (parsePath "a.txt") (parsePath "/files/a.txt")
      (by decide) (by decide) (by decide) (by decide) (by decide)).2⟩

/-! ## Claim C10 -/

/-- C10: `insert` stamps the entry's `expires_at` once, to the insertion
time plus `default_ttl`; a successful `get` changes only
`last_accessed` (value and `expires_at` survive verbatim); a `get` on a
different key leaves the entry fully untouched; and hence after any
sequence of `get` calls whatsoever, an entry still present for the key
carries the original value and the original `expires_at`, so it expires
exactly `default_ttl` after insertion no matter how often it was
accessed. -/
theorem c10_get_frame_effect {K V : Type} [DecidableEq K] (m : CacheMap K V)
    (t : Nat) (k : K) (v : V) :
    mapGet (m.insert t k v).inner k
        = some { inner := v, last_accessed := t, expires_at := t + m.default_ttl }
      ∧ (∀ (now : Nat) (e : CacheEntry V),
          mapGet m.inner k = some e → now < e.expires_at →
            (m.get now k).1 = some e.inner
              ∧ mapGet ((m.get now k).2).inner k
                  = some { inner := e.inner, last_accessed := now,
                           expires_at := e.expires_at })
      ∧ (∀ (now : Nat) (i : K), i ≠ k →
          mapGet ((m.get now i).2).inner k = mapGet m.inner k)
      ∧ (∀ (ops : List (Nat × K)) (e : CacheEntry V),
          mapGet ((getSeq (m.insert t k v) ops).inner) k = some e →
            e.inner = v ∧ e.expires_at = t + m.default_ttl) := by
  refine ⟨cache_insert_lookup m t k v, ?_, ?_, ?_⟩
  · intro now e h hexp
    unfold CacheMap.get
    rw [h]
    dsimp only
    rw [if_neg (by omega)]
    dsimp only
    exact ⟨rfl, alistGet_adjust_self m.inner k _ e h⟩
  · intro now i hik
    exact cache_get_frame m now i k hik
  · intro ops
    have hgen : ∀ (ops : List (Nat × K)) (m' : CacheMap K V),
        (∀ e', mapGet m'.inner k = some e' →
            e'.inner = v ∧ e'.expires_at = t + m.default_ttl) →
        ∀ e', mapGet ((getSeq m' ops).inner) k = some e' →
          e'.inner = v ∧ e'.expires_at = t + m.default_ttl := by
      intro ops
      induction ops with
      | nil => intro m' hm'; exact hm'
      | cons op rest ih =>
        intro m' hm'
        obtain ⟨tn, ki⟩ := op
        apply ih
        intro e' he'
        by_cases hik : ki = k
        · subst hik
          obtain ⟨e0, he0, hi, hx⟩ := cache_get_self_cases m' tn ki e' he'
          obtain ⟨h1, h2⟩ := hm' e0 he0
          exact ⟨by rw [hi, h1], by rw [hx, h2]⟩
        · rw [cache_get_frame m' tn ki k hik] at he'
          exact hm' e' he'
    intro e he
    apply hgen ops (m.insert t k v) _ e he
    intro e' he'
    rw [cache_insert_lookup m t k v] at he'
    injection he' with he'
    rw [← he']
    exact ⟨rfl, rfl⟩

/-- C10 witness: insert at time 2, access at time 5, and the entry's
value and expiry are unchanged while `last_accessed` moved to 5. -/
theorem c10_get_frame_effect_witness :
    mapGet (((CacheMap.new Nat Nat).with_ttl 10).insert 2 1 99).inner 1
        = some { inner := 99, last_accessed := 2,
                 expires_at := 2 + ((CacheMap.new Nat Nat).with_ttl 10).default_ttl }
      ∧ (∀ (e : CacheEntry Nat),
          mapGet ((getSeq (((CacheMap.new Nat Nat).with_ttl 10).insert 2 1 99)
              [(5, 1), (7, 1)]).inner) 1 = some e →
            e.inner = 99
              ∧ e.expires_at = 2 + ((CacheMap.new Nat Nat).with_ttl 10).default_ttl) :=
  ⟨(c10_get_frame_effect ((CacheMap.new Nat Nat).with_ttl 10) 2 1 99).1,
    fun e he =>
      (c10_get_frame_effect ((CacheMap.new Nat Nat).with_ttl 10) 2 1 99).2.2.2
        [(5, 1), (7, 1)] e he⟩

end SFS
